import Mathlib

/-!
Verification development for a TSP solving engine.

The engine under study operates on an n×n cost matrix and offers:
an exact Held-Karp subset-DP solver, a nearest-neighbour construction
heuristic, a Christofides-style approximation pipeline
(Prim MST → odd-degree vertices → greedy matching → multigraph →
Hierholzer Eulerian circuit → Hamiltonian shortcut), a 2-opt
first-improvement local search, a size-based dispatch entrypoint, and
input validation at solver construction.

Embedding conventions:
* matrix entries are rationals (`ℚ`), the matrix itself a total function
  `ℕ → ℕ → ℚ` together with the city count `n` (mirroring
  `self.distance_matrix` / `self.n`);
* Python `float('inf')` used by the DP is `⊤` in `WithTop ℚ`;
* integer bitmasks `bits` of the DP (built as `sum(1 << i for i in subset)`,
  an injective encoding of finite sets of city indices) are embedded as
  `Finset ℕ`; `bits & ~(1 << last)` becomes `S.erase last`, the key `(1, 0)`
  becomes `({0}, 0)`;
* Python exceptions become an `Except` error value; the raise sites
  (`ValueError` with its message, and the untyped `KeyError` escaping
  `set.remove` / dict indexing) are the constructors of `TSPError`;
* `while` loops become fuel-indexed structural recursion; every top-level
  entrypoint supplies fuel that provably dominates the loop's iteration
  count, which is established inside the correctness lemmas;
* iteration order over a CPython set of small naturals (its `min`, `pop`)
  is modelled as increasing numeric order.
-/

namespace TSP

/-- A distance matrix as a total function on city indices. -/
abbrev Dist := ℕ → ℕ → ℚ

/-- Error values raised by the engine.  `valueError msg` embeds Python's
`raise ValueError(msg)`; `keyError` embeds the untyped `KeyError` that
escapes `set.remove(x)` / `dict[k]` on a missing element. -/
inductive TSPError where
  | valueError (msg : String)
  | keyError
deriving DecidableEq, Repr

/-- The result record returned by every solver entrypoint
(`TSPResult` dataclass; the wall-clock `execution_time` field is not
modelled). -/
structure TSPResult where
  tour : List ℕ
  cost : ℚ
  algorithm : String
  num_cities : ℕ
  is_optimal : Bool
  approximation_ratio : Option ℚ := none
deriving DecidableEq, Repr

/-- A NumPy-style rectangular array of rationals: a shape `(rows, cols)`
plus an entry function. -/
structure NpMatrix where
  rows : ℕ
  cols : ℕ
  entry : ℕ → ℕ → ℚ

/-- `validate_input`: checks, in order, that the matrix is square
(`shape[0] != shape[1]`), that `n ≥ 2` (`self.n = len(matrix)` is the row
count), and that every diagonal entry is zero; raises `ValueError` with
the message of the first failing check. -/
def validate_input (m : NpMatrix) : Except TSPError Unit :=
  if m.rows ≠ m.cols then .error (.valueError "Distance matrix must be square")
  else if m.rows < 2 then .error (.valueError "Need at least 2 cities")
  else if ¬ (∀ i ∈ Finset.range m.rows, m.entry i i = 0) then
    .error (.valueError "Diagonal elements must be zero")
  else .ok ()

/-- A constructed solver: the stored matrix together with `self.n`. -/
structure TSPSolver where
  distance_matrix : NpMatrix
  n : ℕ

/-- `TSPSolver.__init__`: stores the matrix, sets `self.n = len(matrix)`,
and runs `validate_input` before any solver method can run. -/
def mkSolver (m : NpMatrix) : Except TSPError TSPSolver :=
  match validate_input m with
  | .error e => .error e
  | .ok _ => .ok ⟨m, m.rows⟩

/-- `calculate_tour_cost`: `sum(d[tour[i]][tour[(i+1) % len(tour)]])`,
i.e. the sum of `d` over consecutive pairs of the tour including the
wraparound edge.  The list of those pairs is `tour.zip (tour.rotate 1)`. -/
def calculate_tour_cost (d : Dist) (tour : List ℕ) : ℚ :=
  ((tour.zip (tour.rotate 1)).map fun p => d p.1 p.2).sum

/-- Cost of a non-cyclic walk: the sum of `d` over consecutive pairs,
without the wraparound edge (analysis helper). -/
def pathCost (d : Dist) : List ℕ → ℚ
  | [] => 0
  | [_] => 0
  | a :: b :: rest => d a b + pathCost d (b :: rest)

/-- Minimum of a list of extended costs, `⊤` for the empty list; the value
computed by Python's scan `if cost < min_cost: min_cost = cost` starting
from `float('inf')`. -/
def listMin (l : List (WithTop ℚ)) : WithTop ℚ := l.foldr min ⊤

@[simp] theorem listMin_nil : listMin [] = ⊤ := rfl

@[simp] theorem listMin_cons (a : WithTop ℚ) (l : List (WithTop ℚ)) :
    listMin (a :: l) = min a (listMin l) := rfl

theorem listMin_le_of_mem {l : List (WithTop ℚ)} {a : WithTop ℚ} (h : a ∈ l) :
    listMin l ≤ a := by
  induction l with
  | nil => cases h
  | cons b t ih =>
    rcases List.mem_cons.mp h with rfl | h'
    · exact min_le_left _ _
    · exact le_trans (min_le_right _ _) (ih h')

theorem le_listMin {l : List (WithTop ℚ)} {x : WithTop ℚ}
    (h : ∀ a ∈ l, x ≤ a) : x ≤ listMin l := by
  induction l with
  | nil => exact le_top
  | cons b t ih =>
    exact le_min (h b (List.mem_cons_self b t)) (ih fun a ha => h a (List.mem_cons_of_mem b ha))

theorem listMin_mem {l : List (WithTop ℚ)} (h : listMin l ≠ ⊤) : listMin l ∈ l := by
  induction l with
  | nil => simp at h
  | cons b t ih =>
    rcases le_total b (listMin t) with hb | hb
    · simp only [listMin_cons, min_eq_left hb]
      exact List.mem_cons_self b t
    · simp only [listMin_cons, min_eq_right hb] at h ⊢
      exact List.mem_cons_of_mem b (ih h)

theorem listMin_eq_top_iff {l : List (WithTop ℚ)} :
    listMin l = ⊤ ↔ ∀ a ∈ l, a = ⊤ := by
  induction l with
  | nil => simp
  | cons b t ih =>
    simp only [listMin_cons, min_eq_top, List.mem_cons, forall_eq_or_imp, ih]

/-- The elements of a set of city indices in increasing order: the
iteration order of a CPython set of small naturals, and the order of the
DP's subset tuples `(0,) + combination`.  All sets handled by the engine
are sets of city indices, i.e. subsets of `range n`. -/
def ascList (n : ℕ) (S : Finset ℕ) : List ℕ :=
  (List.range n).filter fun i => decide (i ∈ S)

/-! ### Held-Karp exact solver

The Python DP dictionary maps `(bits, last)` to `(min_cost, prev_city)`.
It is filled in increasing subset-size order, so an entry only reads
entries with strictly smaller masks; the final table therefore satisfies
the recurrence that `hkGet` / `hkPrev` compute directly.  `hkGet` is the
cost component of `dp.get((bits, last), (inf, -1))`: the stored value on
the dictionary's keys (mask containing city 0 and `last ≠ 0`, plus the
base key `({0}, 0) = (1, 0)`), and `⊤` (= `float('inf')`) off the keys.
`hkPrev` is the predecessor component, `none` standing for `-1`.
The fuel argument dominates the mask's cardinality. -/
def hkGet (d : Dist) (n : ℕ) : ℕ → Finset ℕ → ℕ → WithTop ℚ
  | 0, S, last => if S = {0} ∧ last = 0 then 0 else ⊤
  | fuel + 1, S, last =>
    if S = {0} ∧ last = 0 then 0
    else if 0 ∈ S ∧ last ∈ S ∧ last ≠ 0 ∧ S ⊆ Finset.range n then
      listMin ((ascList n (S.erase last)).map fun prev =>
        hkGet d n fuel (S.erase last) prev + (d prev last : WithTop ℚ))
    else ⊤

/-- Predecessor component of the DP entry: the first `prev` (scanning the
subset in increasing order, as the sorted tuple `(0,) + subset` does) whose
candidate cost attains the entry's minimum; `none` (Python `-1`) when the
minimum stayed at infinity. -/
def hkPrev (d : Dist) (n : ℕ) (fuel : ℕ) (S : Finset ℕ) (last : ℕ) : Option ℕ :=
  if S = {0} ∧ last = 0 then none
  else if 0 ∈ S ∧ last ∈ S ∧ last ≠ 0 ∧ S ⊆ Finset.range n then
    if listMin ((ascList n (S.erase last)).map fun prev =>
        hkGet d n fuel (S.erase last) prev + (d prev last : WithTop ℚ)) = ⊤ then none
    else (ascList n (S.erase last)).find? fun prev =>
      decide (hkGet d n fuel (S.erase last) prev + (d prev last : WithTop ℚ) =
        listMin ((ascList n (S.erase last)).map fun prev2 =>
          hkGet d n fuel (S.erase last) prev2 + (d prev2 last : WithTop ℚ)))
  else none

/-- The `while current != 0` walk of `reconstruct_path_hk`: repeatedly read
the predecessor of the current state, append it to `path`, and clear the
current city from the mask.  Fuel dominates the number of iterations. -/
def reconLoop (d : Dist) (n : ℕ) : ℕ → Finset ℕ → ℕ → List ℕ → List ℕ
  | 0, _, _, path => path
  | fuel + 1, mask, current, path =>
    if current = 0 then path
    else
      match hkPrev d n n (mask) current with
      | none => path
      | some prev => reconLoop d n fuel (mask.erase current) prev (path ++ [prev])

/-- `reconstruct_path_hk`: walk predecessor links backward from `(mask, last)`
to city 0, then reverse. -/
def reconstruct_path_hk (d : Dist) (n : ℕ) (mask : Finset ℕ) (last : ℕ) : List ℕ :=
  (reconLoop d n n mask last [last]).reverse

/-- `held_karp`: rejects `n > 20`; otherwise fills the DP table, takes the
minimum over `i ∈ range(1, n)` of `dp[(full, i)] + d[i][0]` (tracking the
first city attaining it as `last_city`), reconstructs the tour, and returns
an optimal-flagged result.  The `keyError` branch embeds the `KeyError`
that Python's reconstruction raises when `last_city` stays `-1` (only
possible for the unvalidated sizes `n < 2`). -/
def held_karp (d : Dist) (n : ℕ) : Except TSPError TSPResult :=
  if n > 20 then
    .error (.valueError "Held-Karp: Too many cities (max 20 for practical computation)")
  else
    let allCities : Finset ℕ := Finset.range n
    let finals := List.range' 1 (n - 1)
    let minCost := listMin (finals.map fun i =>
      hkGet d n n allCities i + (d i 0 : WithTop ℚ))
    let lastCity := if minCost = ⊤ then none
      else finals.find? fun i =>
        decide (hkGet d n n allCities i + (d i 0 : WithTop ℚ) = minCost)
    match lastCity with
    | none => .error .keyError
    | some lc =>
      .ok { tour := reconstruct_path_hk d n allCities lc
            cost := (minCost.untop' 0)
            algorithm := "Held-Karp (Exact DP)"
            num_cities := n
            is_optimal := true
            approximation_ratio := none }

/-! ### Nearest neighbour -/

/-- Scan of Python's `min(iterable, key=f)`: keep the current best, replace
it only on a strictly smaller key, so the first minimiser wins. -/
def minKeyFirst (f : ℕ → ℚ) : List ℕ → ℕ → ℕ
  | [], best => best
  | x :: xs, best => minKeyFirst f xs (if f x < f best then x else best)

/-- `min(s, key=f)` over a CPython set of small naturals: scan in
increasing numeric order, first minimiser wins (returns `0` on the empty
set, where Python would raise; never called that way). -/
def setMinBy (n : ℕ) (f : ℕ → ℚ) (s : Finset ℕ) : ℕ :=
  match ascList n s with
  | [] => 0
  | x :: xs => minKeyFirst f xs x

/-- The `while unvisited` loop of `nearest_neighbor`: hop to the nearest
unvisited city, accumulating the edge cost; returns the updated
`(tour, total_cost, current)`. -/
def nnLoop (d : Dist) (n : ℕ) : ℕ → Finset ℕ → ℕ → List ℕ → ℚ → List ℕ × ℚ × ℕ
  | 0, _, current, tour, total => (tour, total, current)
  | fuel + 1, unvisited, current, tour, total =>
    if unvisited.Nonempty then
      let nearest := setMinBy n (fun x => d current x) unvisited
      nnLoop d n fuel (unvisited.erase nearest) nearest (tour ++ [nearest])
        (total + d current nearest)
    else (tour, total, current)

/-- `nearest_neighbor(start)`: `unvisited.remove(start)` raises `KeyError`
unless `start ∈ set(range(n))`; otherwise greedily builds the tour and
closes it back to `start`. -/
def nearest_neighbor (d : Dist) (n : ℕ) (start : ℕ) : Except TSPError TSPResult :=
  if start < n then
    let st := nnLoop d n n ((Finset.range n).erase start) start [start] 0
    .ok { tour := st.1
          cost := st.2.1 + d st.2.2 start
          algorithm := "Nearest Neighbor"
          num_cities := n
          is_optimal := false
          approximation_ratio := none }
  else .error .keyError

/-! ### Christofides pipeline -/

/-- Lexicographic comparison of heap entries `(weight, u, v)`, the order
`heapq` uses on tuples.  Entries in one run are pairwise distinct (each
ordered pair `(u, v)` is pushed at most once), so ties never matter. -/
def entryLe (a b : ℚ × ℕ × ℕ) : Bool :=
  decide (a.1 < b.1) ||
    (decide (a.1 = b.1) &&
      (decide (a.2.1 < b.2.1) || (decide (a.2.1 = b.2.1) && decide (a.2.2 ≤ b.2.2))))

/-- First minimal element of a nonempty scan (analog of `minKeyFirst` for
heap entries). -/
def entryMinFirst : List (ℚ × ℕ × ℕ) → (ℚ × ℕ × ℕ) → ℚ × ℕ × ℕ
  | [], best => best
  | x :: xs, best =>
    entryMinFirst xs (if entryLe x best && !(entryLe best x) then x else best)

/-- `heapq.heappop`: remove and return the least entry (the heap is
modelled as a plain list). -/
def heapPop : List (ℚ × ℕ × ℕ) → Option ((ℚ × ℕ × ℕ) × List (ℚ × ℕ × ℕ))
  | [] => none
  | x :: xs =>
    let m := entryMinFirst xs x
    some (m, (x :: xs).erase m)

/-- The `while len(visited) < n and edges` loop of `compute_mst` (Prim):
pop the cheapest candidate edge; discard it if its target is already
visited, otherwise add it to the MST and push fresh edges from the new
vertex to every unvisited city. -/
def primLoop (d : Dist) (n : ℕ) :
    ℕ → Finset ℕ → List (ℚ × ℕ × ℕ) → List (ℕ × ℕ) → List (ℕ × ℕ)
  | 0, _, _, mst => mst
  | fuel + 1, visited, edges, mst =>
    if visited.card < n then
      match heapPop edges with
      | none => mst
      | some ((_, u, v), rest) =>
        if v ∈ visited then primLoop d n fuel visited rest mst
        else
          primLoop d n fuel (insert v visited)
            (rest ++ ((List.range n).filter fun j => j ∉ insert v visited).map
              fun j => (d v j, v, j))
            (mst ++ [(u, v)])
    else mst

/-- `compute_mst`: Prim's algorithm from city 0 with the initial heap
`[(d[0][j], 0, j) for j in range(1, n)]`. -/
def compute_mst (d : Dist) (n : ℕ) : List (ℕ × ℕ) :=
  primLoop d n (n * n + n) {0}
    ((List.range' 1 (n - 1)).map fun j => (d 0 j, 0, j)) []

/-- Number of incidences of city `i` among the MST edge endpoints: the
value `degree[i]` after the counting loop of `find_odd_degree_vertices`. -/
def degreeOf (E : List (ℕ × ℕ)) (i : ℕ) : ℕ :=
  (E.filter fun e => e.1 == i).length + (E.filter fun e => e.2 == i).length

/-- `find_odd_degree_vertices`: cities of odd degree in the MST. -/
def find_odd_degree_vertices (n : ℕ) (mst : List (ℕ × ℕ)) : List ℕ :=
  (List.range n).filter fun i => degreeOf mst i % 2 == 1

/-- The `while unmatched` loop of `min_weight_matching`: pop a vertex
(`set.pop()`, modelled as the least element), pair it with its nearest
remaining partner, repeat.  When the pool has odd size Python's
`min([])` would raise; the loop then stops (unreachable: odd-degree
vertex sets have even size). -/
def matchLoop (d : Dist) (n : ℕ) : ℕ → Finset ℕ → List (ℕ × ℕ) → List (ℕ × ℕ)
  | 0, _, matching => matching
  | fuel + 1, unmatched, matching =>
    if h : unmatched.Nonempty then
      if (unmatched.erase (unmatched.min' h)).Nonempty then
        matchLoop d n fuel
          ((unmatched.erase (unmatched.min' h)).erase
            (setMinBy n (fun u => d (unmatched.min' h) u)
              (unmatched.erase (unmatched.min' h))))
          (matching ++ [(unmatched.min' h,
            setMinBy n (fun u => d (unmatched.min' h) u)
              (unmatched.erase (unmatched.min' h)))])
      else matching
    else matching

/-- `min_weight_matching` on the odd-degree vertex list. -/
def min_weight_matching (d : Dist) (n : ℕ) (odd_vertices : List ℕ) : List (ℕ × ℕ) :=
  matchLoop d n odd_vertices.length odd_vertices.toFinset []

/-- One `graph[u].append(v); graph[v].append(u)` step on the adjacency
structure (a length-`n` list of adjacency lists). -/
def addEdge (g : List (List ℕ)) (e : ℕ × ℕ) : List (List ℕ) :=
  let g1 := g.set e.1 (g.getD e.1 [] ++ [e.2])
  g1.set e.2 (g1.getD e.2 [] ++ [e.1])

/-- `combine_mst_matching`: start from `{i: [] for i in range(n)}` and add
every MST and matching edge in both directions (parallel edges allowed). -/
def combine_mst_matching (n : ℕ) (mst matching : List (ℕ × ℕ)) : List (List ℕ) :=
  (mst ++ matching).foldl addEdge (List.replicate n [])

/-- Total number of stored adjacency entries of the multigraph. -/
def gSize (g : List (List ℕ)) : ℕ := (g.map List.length).sum

/-- The Hierholzer loop of `find_eulerian_circuit`: while the stack top has
unused edges, follow the last-listed one (removing it from both endpoint
lists) and push the new vertex; otherwise pop the top onto the circuit.
The Python stack grows at the list's tail; here the stack top is the list
head. -/
def eulerLoop : ℕ → List (List ℕ) → List ℕ → List ℕ → List ℕ
  | 0, _, _, circuit => circuit
  | fuel + 1, g, path, circuit =>
    match path with
    | [] => circuit
    | current :: stk =>
      match g.getD current [] with
      | [] => eulerLoop fuel g stk (circuit ++ [current])
      | a :: as =>
        eulerLoop fuel
          ((g.set current (a :: as).dropLast).set ((a :: as).getLast (by simp))
            (((g.set current (a :: as).dropLast).getD
              ((a :: as).getLast (by simp)) []).erase current))
          ((a :: as).getLast (by simp) :: current :: stk) circuit

/-- `find_eulerian_circuit`: run the Hierholzer loop from city 0 on a
private copy of the multigraph and reverse the pop order. -/
def find_eulerian_circuit (g : List (List ℕ)) : List ℕ :=
  (eulerLoop (2 * gSize g + 1) g [0] []).reverse

/-- `make_hamiltonian`: keep only the first occurrence of each city of the
Eulerian circuit. -/
def make_hamiltonian (circuit : List ℕ) : List ℕ :=
  circuit.foldl (fun tour c => if c ∈ tour then tour else tour ++ [c]) []

/-- `christofides`: MST → odd vertices → greedy matching → multigraph →
Eulerian circuit → Hamiltonian shortcut; cost recomputed from the tour,
`approximation_ratio` set to the nominal `1.5`. -/
def christofides (d : Dist) (n : ℕ) : TSPResult :=
  let mst := compute_mst d n
  let odd := find_odd_degree_vertices n mst
  let matching := min_weight_matching d n odd
  let graph := combine_mst_matching n mst matching
  let circuit := find_eulerian_circuit graph
  let tour := make_hamiltonian circuit
  { tour := tour
    cost := calculate_tour_cost d tour
    algorithm := "Christofides"
    num_cities := n
    is_optimal := false
    approximation_ratio := some (3 / 2) }

/-! ### 2-opt local search -/

/-- `tour[:i] + tour[i:j+1][::-1] + tour[j+1:]`: reverse the contiguous
segment between positions `i` and `j`. -/
def twoOptSwap (tour : List ℕ) (i j : ℕ) : List ℕ :=
  tour.take i ++ ((tour.drop i).take (j + 1 - i)).reverse ++ tour.drop (j + 1)

/-- The pairs `(i, j)` scanned by the nested loops
`for i in range(1, n-1): for j in range(i+1, n)`, in scan order. -/
def scanPairs (n : ℕ) : List (ℕ × ℕ) :=
  (List.range' 1 (n - 1 - 1)).flatMap fun i =>
    (List.range' (i + 1) (n - (i + 1))).map fun j => (i, j)

/-- The `while improved and iteration < max_iterations` loop of `two_opt`:
each iteration scans the pairs in order for the first candidate strictly
cheaper than `best_cost`; accepting it restarts the scan on the new tour,
a scan without improvement terminates the loop. -/
def twoOptLoop (d : Dist) (n : ℕ) : ℕ → List ℕ → ℚ → List ℕ × ℚ
  | 0, tour, best => (tour, best)
  | fuel + 1, tour, best =>
    match (scanPairs n).find? (fun p =>
        decide (calculate_tour_cost d (twoOptSwap tour p.1 p.2) < best)) with
    | none => (tour, best)
    | some p =>
      twoOptLoop d n fuel (twoOptSwap tour p.1 p.2)
        (calculate_tour_cost d (twoOptSwap tour p.1 p.2))

/-- `two_opt(initial_tour=None, max_iterations=1000)`: seed with the
identity tour when no initial tour is given (the caller's list is copied,
never mutated), then run the first-improvement loop. -/
def two_opt (d : Dist) (n : ℕ) (initial_tour : Option (List ℕ) := none)
    (max_iterations : ℕ := 1000) : TSPResult :=
  let tour0 := match initial_tour with
    | none => List.range n
    | some t => t
  let st := twoOptLoop d n max_iterations tour0 (calculate_tour_cost d tour0)
  { tour := st.1
    cost := st.2
    algorithm := "2-opt"
    num_cities := n
    is_optimal := false
    approximation_ratio := none }

/-! ### Dispatch -/

/-- `solve(algorithm="auto")`: in auto mode dispatch by size
(`n ≤ 15` exact, `n ≤ 100` Christofides, else nearest neighbour followed
by 2-opt seeded with its tour); otherwise look the name up, raising
`ValueError` for unknown names. -/
def solve (d : Dist) (n : ℕ) (algorithm : String := "auto") :
    Except TSPError TSPResult :=
  if algorithm = "auto" then
    if n ≤ 15 then held_karp d n
    else if n ≤ 100 then .ok (christofides d n)
    else
      match nearest_neighbor d n 0 with
      | .error e => .error e
      | .ok nn_result => .ok (two_opt d n (some nn_result.tour))
  else if algorithm = "held-karp" then held_karp d n
  else if algorithm = "christofides" then .ok (christofides d n)
  else if algorithm = "nearest-neighbor" then nearest_neighbor d n 0
  else if algorithm = "2-opt" then .ok (two_opt d n)
  else .error (.valueError ("Unknown algorithm: " ++ algorithm))

/-! ### Elementary facts about tour and walk costs -/

theorem getLastD_cons_of_ne_nil {l : List ℕ} (h : l ≠ []) (a x : ℕ) :
    (a :: l).getLastD x = l.getLastD x := by
  cases l with
  | nil => cases h rfl
  | cons b t => simp [List.getLastD_eq_getLast?, List.getLast?_cons_cons]

theorem getLastD_append_of_ne_nil {y : List ℕ} (h : y ≠ []) (x : List ℕ) (c : ℕ) :
    (x ++ y).getLastD c = y.getLastD c := by
  obtain ⟨b, hb⟩ := Option.isSome_iff_exists.mp (List.getLast?_isSome.mpr h)
  simp [List.getLastD_eq_getLast?, List.getLast?_append, hb]

theorem pathCost_cons_cons (d : Dist) (a b : ℕ) (l : List ℕ) :
    pathCost d (a :: b :: l) = d a b + pathCost d (b :: l) := rfl

theorem pathCost_append_single (d : Dist) {q : List ℕ} (hq : q ≠ []) (x : ℕ) :
    pathCost d (q ++ [x]) = pathCost d q + d (q.getLastD 0) x := by
  induction q with
  | nil => cases hq rfl
  | cons a t ih =>
    cases t with
    | nil => simp [pathCost]
    | cons b t' =>
      have ih' := ih (List.cons_ne_nil b t')
      simp only [List.cons_append] at ih' ⊢
      rw [pathCost_cons_cons d a b (t' ++ [x]), pathCost_cons_cons d a b t', ih',
        getLastD_cons_of_ne_nil (List.cons_ne_nil b t'), add_assoc]

theorem pathCost_append (d : Dist) {x y : List ℕ} (hx : x ≠ []) (hy : y ≠ []) :
    pathCost d (x ++ y) = pathCost d x + d (x.getLastD 0) (y.headD 0) + pathCost d y := by
  induction x with
  | nil => cases hx rfl
  | cons a t ih =>
    cases t with
    | nil =>
      cases y with
      | nil => cases hy rfl
      | cons b u => simp [pathCost_cons_cons, pathCost]
    | cons c t' =>
      have ih' := ih (List.cons_ne_nil c t')
      simp only [List.cons_append] at ih' ⊢
      rw [pathCost_cons_cons d a c (t' ++ y), pathCost_cons_cons d a c t', ih',
        getLastD_cons_of_ne_nil (List.cons_ne_nil c t')]
      ring

theorem tour_zip_sum (d : Dist) : ∀ (l : List ℕ) (a x : ℕ),
    (((a :: l).zip (l ++ [x])).map fun p => d p.1 p.2).sum
      = pathCost d (a :: l) + d ((a :: l).getLastD 0) x := by
  intro l
  induction l with
  | nil => intro a x; simp [pathCost]
  | cons b t ih =>
    intro a x
    have : ((a :: b :: t).zip ((b :: t) ++ [x])) = (a, b) :: ((b :: t).zip (t ++ [x])) := rfl
    rw [this, List.map_cons, List.sum_cons, ih b x, pathCost_cons_cons,
      getLastD_cons_of_ne_nil (List.cons_ne_nil b t), add_assoc]

theorem calculate_tour_cost_cons (d : Dist) (a : ℕ) (l : List ℕ) :
    calculate_tour_cost d (a :: l) = pathCost d (a :: l) + d ((a :: l).getLastD 0) a := by
  unfold calculate_tour_cost
  have hrot : (a :: l).rotate 1 = l ++ [a] := by
    simpa using List.rotate_cons_succ l a 0
  rw [hrot, tour_zip_sum]

theorem calculate_tour_cost_eq (d : Dist) {t : List ℕ} (h : t ≠ []) :
    calculate_tour_cost d t = pathCost d t + d (t.getLastD 0) (t.headD 0) := by
  cases t with
  | nil => cases h rfl
  | cons a l => rw [calculate_tour_cost_cons]; rfl

theorem calculate_tour_cost_append_comm (d : Dist) (x y : List ℕ) :
    calculate_tour_cost d (x ++ y) = calculate_tour_cost d (y ++ x) := by
  cases hx : x with
  | nil => simp
  | cons a t =>
    cases hy : y with
    | nil => simp
    | cons b u =>
      rw [calculate_tour_cost_eq d (by simp : (a :: t) ++ (b :: u) ≠ []),
        calculate_tour_cost_eq d (by simp : (b :: u) ++ (a :: t) ≠ []),
        pathCost_append d (List.cons_ne_nil a t) (List.cons_ne_nil b u),
        pathCost_append d (List.cons_ne_nil b u) (List.cons_ne_nil a t),
        getLastD_append_of_ne_nil (List.cons_ne_nil b u),
        getLastD_append_of_ne_nil (List.cons_ne_nil a t)]
      simp only [List.cons_append, List.headD_cons]
      ring

/-! ### The walks stored by the Held-Karp table -/

/-- The simple walks realising a DP state: permutations of the cities in
`S` that start at city 0 and end at `last`. -/
def hkPaths (S : Finset ℕ) (last : ℕ) : List (List ℕ) :=
  (S.sort (· ≤ ·)).permutations'.filter fun p =>
    p.head? == some 0 && p.getLast? == some last

/-- Minimum walk cost over `hkPaths S last`: the intended value of the DP
entry `(S, last)`. -/
def pathMin (d : Dist) (S : Finset ℕ) (last : ℕ) : WithTop ℚ :=
  listMin ((hkPaths S last).map fun p => (pathCost d p : WithTop ℚ))

theorem mem_hkPaths {S : Finset ℕ} {last : ℕ} {p : List ℕ} :
    p ∈ hkPaths S last ↔
      p.Perm (S.sort (· ≤ ·)) ∧ p.head? = some 0 ∧ p.getLast? = some last := by
  simp [hkPaths, List.mem_filter, List.mem_permutations', and_assoc]

theorem hkPaths_nodup {S : Finset ℕ} {last : ℕ} {p : List ℕ}
    (hp : p ∈ hkPaths S last) : p.Nodup :=
  ((mem_hkPaths.mp hp).1.symm.nodup_iff).mp (Finset.sort_nodup _ S)

theorem hkPaths_mem_iff {S : Finset ℕ} {last : ℕ} {p : List ℕ}
    (hp : p ∈ hkPaths S last) {a : ℕ} : a ∈ p ↔ a ∈ S := by
  rw [(mem_hkPaths.mp hp).1.mem_iff, Finset.mem_sort]

theorem hkPaths_ne_nil {S : Finset ℕ} {last : ℕ} {p : List ℕ}
    (hp : p ∈ hkPaths S last) : p ≠ [] := by
  intro h
  subst h
  exact Option.noConfusion (mem_hkPaths.mp hp).2.1

theorem hkPaths_zero_mem {S : Finset ℕ} {last : ℕ} {p : List ℕ}
    (hp : p ∈ hkPaths S last) : 0 ∈ S := by
  rw [← hkPaths_mem_iff hp]
  obtain ⟨-, h0, -⟩ := mem_hkPaths.mp hp
  cases p with
  | nil => exact Option.noConfusion h0
  | cons a t =>
    cases h0
    exact List.mem_cons_self _ _

theorem hkPaths_last_mem {S : Finset ℕ} {last : ℕ} {p : List ℕ}
    (hp : p ∈ hkPaths S last) : last ∈ S := by
  rw [← hkPaths_mem_iff hp]
  obtain ⟨-, -, hl⟩ := mem_hkPaths.mp hp
  obtain ⟨h, rfl⟩ := List.mem_getLast?_eq_getLast (by rw [hl]; rfl)
  exact List.getLast_mem h

/-- A DP state with `last = 0` carries a walk only in the degenerate base
case `S = {0}`. -/
theorem hkPaths_zero_imp {S : Finset ℕ} {p : List ℕ}
    (hp : p ∈ hkPaths S 0) : S = {0} := by
  obtain ⟨hperm, h0, hl⟩ := mem_hkPaths.mp hp
  have hnd := hkPaths_nodup hp
  cases p with
  | nil => exact Option.noConfusion h0
  | cons a t =>
    cases h0
    cases t with
    | nil =>
      have : S.sort (· ≤ ·) = [0] := ((hperm.symm).eq_singleton)
      ext x
      rw [← Finset.mem_sort (· ≤ ·), this]
      simp
    | cons b u =>
      rw [List.getLast?_cons_cons] at hl
      obtain ⟨h, hx⟩ := List.mem_getLast?_eq_getLast (by rw [hl]; rfl)
      exact absurd (hx ▸ List.getLast_mem h) (List.nodup_cons.mp hnd).1

theorem hkPaths_eq_nil {S : Finset ℕ} {last : ℕ}
    (h1 : ¬(0 ∈ S ∧ last ∈ S ∧ last ≠ 0)) (h2 : ¬(S = {0} ∧ last = 0)) :
    hkPaths S last = [] := by
  rw [List.eq_nil_iff_forall_not_mem]
  intro p hp
  by_cases hl : last = 0
  · subst hl
    exact h2 ⟨hkPaths_zero_imp hp, rfl⟩
  · exact h1 ⟨hkPaths_zero_mem hp, hkPaths_last_mem hp, hl⟩

theorem pathMin_singleton (d : Dist) : pathMin d {0} 0 = 0 := by
  have : hkPaths {0} 0 = [[0]] := by
    rw [hkPaths, Finset.sort_singleton]
    decide
  rw [pathMin, this]
  simp [pathCost, listMin]

theorem pathMin_le {d : Dist} {S : Finset ℕ} {last : ℕ} {p : List ℕ}
    (hp : p ∈ hkPaths S last) : pathMin d S last ≤ (pathCost d p : WithTop ℚ) :=
  listMin_le_of_mem (List.mem_map_of_mem _ hp)

theorem pathMin_attain {d : Dist} {S : Finset ℕ} {last : ℕ}
    (h : pathMin d S last ≠ ⊤) :
    ∃ p ∈ hkPaths S last, (pathCost d p : WithTop ℚ) = pathMin d S last := by
  obtain ⟨p, hp, hval⟩ := List.mem_map.mp (listMin_mem h)
  exact ⟨p, hp, hval⟩

theorem sort_erase_perm (S : Finset ℕ) (a : ℕ) :
    ((S.erase a).sort (· ≤ ·)).Perm ((S.sort (· ≤ ·)).erase a) := by
  rw [← Multiset.coe_eq_coe, ← Multiset.coe_erase, Finset.sort_eq, Finset.sort_eq,
    Finset.erase_val]

/-- Decomposition of the DP states' walks: a walk from 0 to `last ≠ 0`
through `S` is a walk from 0 to some `prev` through `S.erase last`,
extended by the edge `prev → last`. -/
theorem hkPaths_decomp {S : Finset ℕ} {last : ℕ} (hlS : last ∈ S) (hne : last ≠ 0)
    (p : List ℕ) :
    p ∈ hkPaths S last ↔
      ∃ prev, ∃ q ∈ hkPaths (S.erase last) prev,
        prev ∈ S.erase last ∧ p = q ++ [last] := by
  constructor
  · intro hp
    obtain ⟨hperm, h0, hl⟩ := mem_hkPaths.mp hp
    have hnd := hkPaths_nodup hp
    have hpne : p ≠ [] := hkPaths_ne_nil hp
    have hlast : p.getLast hpne = last := by
      obtain ⟨h, hx⟩ := List.mem_getLast?_eq_getLast (by rw [hl]; rfl)
      rw [hx]
    have hdl : p.dropLast ++ [last] = p := by
      rw [← hlast]; exact List.dropLast_append_getLast hpne
    set q := p.dropLast with hq
    have hqne : q ≠ [] := by
      intro habs
      rw [habs, List.nil_append] at hdl
      rw [← hdl] at h0
      exact hne (Option.some.inj h0).symm.symm
    have hlastq : last ∉ q := by
      intro habs
      have := hnd
      rw [← hdl] at this
      exact (List.disjoint_of_nodup_append this) habs (List.mem_singleton_self last)
    refine ⟨q.getLast hqne, q, ?_, ?_, hdl.symm⟩
    · rw [mem_hkPaths]
      refine ⟨?_, ?_, List.getLast?_eq_getLast q hqne⟩
      · have h1 : q = p.erase last := by
          conv_rhs => rw [← hdl]
          rw [List.erase_append_right _ hlastq]
          simp
        rw [h1]
        exact (hperm.erase last).trans (sort_erase_perm S last).symm
      · rw [← hdl, List.head?_append_of_ne_nil _ hqne] at h0
        exact h0
    · rw [Finset.mem_erase]
      constructor
      · intro habs
        exact hlastq (habs ▸ List.getLast_mem hqne)
      · rw [← hkPaths_mem_iff hp, ← hdl]
        exact List.mem_append_left _ (List.getLast_mem hqne)
  · rintro ⟨prev, q, hq, hprevS, rfl⟩
    obtain ⟨hperm, h0, hl⟩ := mem_hkPaths.mp hq
    have hqne : q ≠ [] := hkPaths_ne_nil hq
    rw [mem_hkPaths]
    refine ⟨?_, ?_, ?_⟩
    · have p1 : q.Perm ((S.sort (· ≤ ·)).erase last) := hperm.trans (sort_erase_perm S last)
      have p2 : (q ++ [last]).Perm (last :: (S.sort (· ≤ ·)).erase last) :=
        (p1.append_right [last]).trans (List.perm_append_singleton _ _)
      exact p2.trans (List.perm_cons_erase (by rw [Finset.mem_sort]; exact hlS)).symm
    · rw [List.head?_append_of_ne_nil _ hqne]
      exact h0
    · rw [List.getLast?_append]
      rfl

theorem mem_ascList {n : ℕ} {S : Finset ℕ} {i : ℕ} :
    i ∈ ascList n S ↔ i ∈ S ∧ i < n := by
  simp [ascList, List.mem_filter, List.mem_range, and_comm]

theorem ascList_nodup (n : ℕ) (S : Finset ℕ) : (ascList n S).Nodup :=
  (List.nodup_range n).filter _

theorem ascList_eq_sort {n : ℕ} {S : Finset ℕ} (h : S ⊆ Finset.range n) :
    ascList n S = S.sort (· ≤ ·) := by
  refine List.eq_of_perm_of_sorted ?_ ?_ (Finset.sort_sorted _ _)
  · refine (List.perm_ext_iff_of_nodup (ascList_nodup n S) (Finset.sort_nodup _ _)).mpr ?_
    intro a
    rw [mem_ascList, Finset.mem_sort]
    exact ⟨fun h1 => h1.1, fun h1 => ⟨h1, Finset.mem_range.mp (h h1)⟩⟩
  · exact (List.sorted_lt_range n).le_of_lt.filter _

/-- The recurrence satisfied by the minimum walk cost of a DP state with
`last ≠ 0`: minimise over the predecessor city. -/
theorem pathMin_rec (d : Dist) {n : ℕ} {S : Finset ℕ} {last : ℕ}
    (_h0 : 0 ∈ S) (hl : last ∈ S) (hne : last ≠ 0) (hsub : S ⊆ Finset.range n) :
    listMin ((ascList n (S.erase last)).map fun prev =>
      pathMin d (S.erase last) prev + (d prev last : WithTop ℚ)) = pathMin d S last := by
  have getLastD_of_paths : ∀ {prev : ℕ} {q : List ℕ}, q ∈ hkPaths (S.erase last) prev →
      q.getLastD 0 = prev := by
    intro prev q hq
    rw [List.getLastD_eq_getLast?, (mem_hkPaths.mp hq).2.2]
    rfl
  apply le_antisymm
  · apply le_listMin
    intro a ha
    obtain ⟨p, hp, rfl⟩ := List.mem_map.mp ha
    obtain ⟨prev, q, hq, hprevE, rfl⟩ := (hkPaths_decomp hl hne p).mp hp
    have hprevMem : prev ∈ ascList n (S.erase last) := by
      rw [mem_ascList]
      exact ⟨hprevE, Finset.mem_range.mp (hsub (Finset.mem_of_mem_erase hprevE))⟩
    refine (listMin_le_of_mem (List.mem_map_of_mem _ hprevMem)).trans ?_
    have h3 : pathCost d (q ++ [last]) = pathCost d q + d prev last := by
      rw [pathCost_append_single d (hkPaths_ne_nil hq) last, getLastD_of_paths hq]
    rw [h3]
    push_cast
    exact add_le_add_right (pathMin_le hq) _
  · apply le_listMin
    intro a ha
    obtain ⟨prev, hprevMem, rfl⟩ := List.mem_map.mp ha
    by_cases htop : pathMin d (S.erase last) prev = ⊤
    · rw [htop, top_add]
      exact le_top
    · obtain ⟨q, hq, hval⟩ := pathMin_attain htop
      have hmem : q ++ [last] ∈ hkPaths S last := by
        rw [hkPaths_decomp hl hne]
        exact ⟨prev, q, hq, (mem_ascList.mp hprevMem).1, rfl⟩
      refine (pathMin_le hmem).trans ?_
      have h3 : pathCost d (q ++ [last]) = pathCost d q + d prev last := by
        rw [pathCost_append_single d (hkPaths_ne_nil hq) last, getLastD_of_paths hq]
      rw [h3]
      push_cast
      rw [hval]

/-- The central Held-Karp invariant: with sufficient fuel, the DP entry of
state `(S, last)` is the minimum cost over all simple walks from city 0 to
`last` that visit exactly the cities of `S`. -/
theorem hkGet_eq_pathMin (d : Dist) (n : ℕ) :
    ∀ (fuel : ℕ) (S : Finset ℕ) (last : ℕ), S ⊆ Finset.range n → S.card ≤ fuel + 1 →
      hkGet d n fuel S last = pathMin d S last := by
  intro fuel
  induction fuel with
  | zero =>
    intro S last hsub hcard
    by_cases hc : S = {0} ∧ last = 0
    · rw [hkGet, if_pos hc, hc.1, hc.2, pathMin_singleton]
    · rw [hkGet, if_neg hc]
      have hnil : hkPaths S last = [] := by
        apply hkPaths_eq_nil ?_ hc
        rintro ⟨hz, hl, hne⟩
        have hpair : ({0, last} : Finset ℕ) ⊆ S := by
          intro x hx
          rcases Finset.mem_insert.mp hx with rfl | hx
          · exact hz
          · exact (Finset.mem_singleton.mp hx) ▸ hl
        have h2 : 2 ≤ S.card := by
          have hcp : ({0, last} : Finset ℕ).card = 2 := by
            rw [Finset.card_insert_of_not_mem (by simp [Ne.symm hne]),
              Finset.card_singleton]
          rw [← hcp]
          exact Finset.card_le_card hpair
        omega
      rw [pathMin, hnil]
      rfl
  | succ fuel ih =>
    intro S last hsub hcard
    by_cases hc : S = {0} ∧ last = 0
    · rw [hkGet, if_pos hc, hc.1, hc.2, pathMin_singleton]
    · by_cases hg : 0 ∈ S ∧ last ∈ S ∧ last ≠ 0 ∧ S ⊆ Finset.range n
      · obtain ⟨h0, hl, hne, hsub'⟩ := hg
        rw [hkGet, if_neg hc, if_pos ⟨h0, hl, hne, hsub'⟩]
        have hmap : ∀ prev ∈ ascList n (S.erase last),
            hkGet d n fuel (S.erase last) prev + (d prev last : WithTop ℚ)
              = pathMin d (S.erase last) prev + (d prev last : WithTop ℚ) := by
          intro prev _
          rw [ih (S.erase last) prev ((S.erase_subset last).trans hsub)
            (by rw [Finset.card_erase_of_mem hl]; omega)]
        rw [List.map_congr_left hmap, pathMin_rec d h0 hl hne hsub]
      · rw [hkGet, if_neg hc, if_neg hg]
        have hnil : hkPaths S last = [] := by
          apply hkPaths_eq_nil ?_ hc
          rintro ⟨hz, hl, hne⟩
          exact hg ⟨hz, hl, hne, hsub⟩
        rw [pathMin, hnil]
        rfl

theorem hkPaths_singleton : hkPaths {0} 0 = [[0]] := by
  rw [hkPaths, Finset.sort_singleton]
  decide

theorem hkPaths_getLastD {S : Finset ℕ} {prev : ℕ} {q : List ℕ}
    (hq : q ∈ hkPaths S prev) : q.getLastD 0 = prev := by
  rw [List.getLastD_eq_getLast?, (mem_hkPaths.mp hq).2.2]
  rfl

/-- When a DP state with `last ≠ 0` has a finite value, the stored
predecessor is defined, lies in `S.erase last`, and realises the value. -/
theorem hkPrev_spec (d : Dist) (n : ℕ) (fuel : ℕ) {S : Finset ℕ} {last : ℕ}
    (hsub : S ⊆ Finset.range n) (hcard : S.card ≤ fuel + 2)
    (hne0 : last ≠ 0) (hne : pathMin d S last ≠ ⊤) :
    ∃ prev, hkPrev d n fuel S last = some prev ∧ prev ∈ S.erase last ∧
      pathMin d (S.erase last) prev + (d prev last : WithTop ℚ) = pathMin d S last := by
  obtain ⟨p, hp, -⟩ := pathMin_attain hne
  have h0S : 0 ∈ S := hkPaths_zero_mem hp
  have hlS : last ∈ S := hkPaths_last_mem hp
  have hmap : ∀ prev ∈ ascList n (S.erase last),
      hkGet d n fuel (S.erase last) prev + (d prev last : WithTop ℚ)
        = pathMin d (S.erase last) prev + (d prev last : WithTop ℚ) := by
    intro prev _
    rw [hkGet_eq_pathMin d n fuel (S.erase last) prev ((S.erase_subset last).trans hsub)
      (by rw [Finset.card_erase_of_mem hlS]; omega)]
  have hbest : listMin ((ascList n (S.erase last)).map fun prev =>
      hkGet d n fuel (S.erase last) prev + (d prev last : WithTop ℚ))
        = pathMin d S last := by
    rw [List.map_congr_left hmap, pathMin_rec d h0S hlS hne0 hsub]
  have hXtop : listMin ((ascList n (S.erase last)).map fun prev =>
      hkGet d n fuel (S.erase last) prev + (d prev last : WithTop ℚ)) ≠ ⊤ := by
    rw [hbest]; exact hne
  obtain ⟨prev0, hprev0Mem, hprev0Val⟩ := List.mem_map.mp (listMin_mem hXtop)
  have hfindSome : ((ascList n (S.erase last)).find? fun prev =>
      decide (hkGet d n fuel (S.erase last) prev + (d prev last : WithTop ℚ) =
        listMin ((ascList n (S.erase last)).map fun prev2 =>
          hkGet d n fuel (S.erase last) prev2 + (d prev2 last : WithTop ℚ)))).isSome := by
    rw [List.find?_isSome]
    exact ⟨prev0, hprev0Mem, by rw [decide_eq_true_eq]; exact hprev0Val⟩
  obtain ⟨prev, hfind⟩ := Option.isSome_iff_exists.mp hfindSome
  have hprevMem : prev ∈ ascList n (S.erase last) := List.mem_of_find?_eq_some hfind
  have hprevVal : hkGet d n fuel (S.erase last) prev + (d prev last : WithTop ℚ)
      = pathMin d S last := by
    have := List.find?_some hfind
    rw [decide_eq_true_eq] at this
    rw [this, hbest]
  refine ⟨prev, ?_, (mem_ascList.mp hprevMem).1, ?_⟩
  · rw [hkPrev, if_neg (by rintro ⟨-, h⟩; exact hne0 h), if_pos ⟨h0S, hlS, hne0, hsub⟩,
      if_neg hXtop, hfind]
  · rw [← hmap prev hprevMem]
    exact hprevVal

/-- Correctness of the predecessor walk: started on a finite-valued state
`(S, cur)` with enough fuel, `reconLoop` appends (in reverse) a walk from
0 to `cur` through `S` whose cost is the DP value. -/
theorem reconLoop_spec (d : Dist) (n : ℕ) :
    ∀ (fuel : ℕ) (S : Finset ℕ) (cur : ℕ) (path : List ℕ),
      S ⊆ Finset.range n → S.card ≤ fuel → 0 ∈ S → cur ∈ S →
      pathMin d S cur ≠ ⊤ →
      ∃ w, reconLoop d n fuel S cur path = path ++ w ∧
        (w.reverse ++ [cur]) ∈ hkPaths S cur ∧
        (pathCost d (w.reverse ++ [cur]) : WithTop ℚ) = pathMin d S cur := by
  intro fuel
  induction fuel with
  | zero =>
    intro S cur path hsub hcard h0 hcur hne
    rw [Finset.card_eq_zero.mp (Nat.le_zero.mp hcard)] at h0
    exact absurd h0 (Finset.not_mem_empty 0)
  | succ fuel ih =>
    intro S cur path hsub hcard h0 hcur hne
    by_cases hc : cur = 0
    · subst hc
      obtain ⟨p, hp, hv⟩ := pathMin_attain hne
      have hS : S = {0} := hkPaths_zero_imp hp
      subst hS
      refine ⟨[], ?_, ?_, ?_⟩
      · rw [reconLoop, if_pos rfl, List.append_nil]
      · rw [List.reverse_nil, List.nil_append, hkPaths_singleton]
        exact List.mem_singleton_self [0]
      · rw [List.reverse_nil, List.nil_append, pathMin_singleton]
        rfl
    · have hcardn : S.card ≤ n + 2 :=
        le_trans (le_trans (Finset.card_le_card hsub) (le_of_eq (Finset.card_range n)))
          (by omega)
      obtain ⟨prev, hfind, hprevE, hval⟩ := hkPrev_spec d n n hsub hcardn hc hne
      have hneE : pathMin d (S.erase cur) prev ≠ ⊤ := by
        intro htop
        rw [htop, top_add] at hval
        exact hne hval.symm
      obtain ⟨w', heq, hmem, hcost⟩ := ih (S.erase cur) prev (path ++ [prev])
        ((S.erase_subset cur).trans hsub)
        (by rw [Finset.card_erase_of_mem hcur]; omega)
        (Finset.mem_erase.mpr ⟨Ne.symm hc, h0⟩) hprevE hneE
      refine ⟨prev :: w', ?_, ?_, ?_⟩
      · rw [reconLoop, if_neg hc, hfind]
        show reconLoop d n fuel (S.erase cur) prev (path ++ [prev]) = path ++ prev :: w'
        rw [heq, List.append_assoc]
        rfl
      · rw [List.reverse_cons, List.append_assoc]
        refine (hkPaths_decomp hcur hc _).mpr ⟨prev, w'.reverse ++ [prev], hmem, hprevE, ?_⟩
        rw [List.append_assoc]
      · rw [List.reverse_cons]
        rw [pathCost_append_single d (hkPaths_ne_nil hmem) cur, hkPaths_getLastD hmem]
        push_cast
        rw [hcost, hval]

/-! ### Global optimality of the exact solver -/

/-- The true minimum cost over all Hamiltonian cycles of the matrix: the
minimum of the cyclic tour cost over every ordering of the `n` cities
(the spec's comparator for the exact solver). -/
def optimalCost (d : Dist) (n : ℕ) : WithTop ℚ :=
  listMin ((List.range n).permutations'.map fun t =>
    (calculate_tour_cost d t : WithTop ℚ))

/-- Every Hamiltonian tour can be rotated to start at city 0 without
changing its cyclic cost. -/
theorem exists_head_zero (d : Dist) {n : ℕ} (hn : 1 ≤ n) {t : List ℕ}
    (ht : t.Perm (List.range n)) :
    ∃ u, u.Perm (List.range n) ∧ u.head? = some 0 ∧
      calculate_tour_cost d u = calculate_tour_cost d t := by
  have h0t : 0 ∈ t := ht.mem_iff.mpr (List.mem_range.mpr hn)
  obtain ⟨s, r, rfl⟩ := List.append_of_mem h0t
  refine ⟨(0 :: r) ++ s, ?_, ?_, ?_⟩
  · exact (List.perm_append_comm).trans ht
  · rfl
  · exact calculate_tour_cost_append_comm d (0 :: r) s

/-- A Hamiltonian tour starting at city 0 (for `n ≥ 2`) is one of the DP's
terminal walks: its final city is a valid `last_city` candidate. -/
theorem tour_mem_hkPaths {n : ℕ} (hn : 2 ≤ n) {u : List ℕ}
    (hu : u.Perm (List.range n)) (hh : u.head? = some 0) :
    ∃ lc, lc ∈ List.range' 1 (n - 1) ∧ u ∈ hkPaths (Finset.range n) lc ∧
      u.getLastD 0 = lc := by
  have hune : u ≠ [] := by
    intro h
    subst h
    exact Option.noConfusion hh
  have hlasteq := List.getLast?_eq_getLast u hune
  set lc := u.getLast hune with hlcdef
  have hmemu : lc ∈ u := List.getLast_mem hune
  have hlc_lt : lc < n := List.mem_range.mp (hu.mem_iff.mp hmemu)
  have hlc0 : lc ≠ 0 := by
    cases u with
    | nil => cases hune rfl
    | cons a rest =>
      cases rest with
      | nil =>
        have hlen : (1 : ℕ) = n := by
          have := hu.length_eq
          simpa using this
        omega
      | cons b rest2 =>
        have ha : a = 0 := Option.some.inj hh
        have hnd : (a :: b :: rest2).Nodup :=
          (hu.nodup_iff).mpr (List.nodup_range n)
        have hmem2 : lc ∈ b :: rest2 := by
          have : lc = (b :: rest2).getLast (List.cons_ne_nil b rest2) := by
            rw [hlcdef]
            rfl
          rw [this]
          exact List.getLast_mem _
        intro habs
        rw [habs] at hmem2
        rw [ha] at hnd
        exact (List.nodup_cons.mp hnd).1 hmem2
  refine ⟨lc, ?_, ?_, ?_⟩
  · rw [List.mem_range'_1]
    omega
  · rw [mem_hkPaths, Finset.sort_range]
    exact ⟨hu, hh, hlasteq⟩
  · rw [List.getLastD_eq_getLast?, hlasteq]
    rfl

/-- Cost of a tour starting at city 0, as closing walk plus return edge. -/
theorem cost_head_zero (d : Dist) {u : List ℕ} (hne : u ≠ []) (hh : u.head? = some 0) :
    calculate_tour_cost d u = pathCost d u + d (u.getLastD 0) 0 := by
  rw [calculate_tour_cost_eq d hne]
  have : u.headD 0 = 0 := by
    cases u with
    | nil => cases hne rfl
    | cons a t => exact Option.some.inj hh
  rw [this]

/-- The final Held-Karp minimisation (over terminal cities, of DP value
plus return edge) computes the minimum over all Hamiltonian cycles. -/
theorem heldKarp_final (d : Dist) (n : ℕ) (hn : 2 ≤ n) :
    listMin ((List.range' 1 (n - 1)).map fun i =>
      hkGet d n n (Finset.range n) i + (d i 0 : WithTop ℚ)) = optimalCost d n := by
  have hmap : ∀ i ∈ List.range' 1 (n - 1),
      hkGet d n n (Finset.range n) i + (d i 0 : WithTop ℚ)
        = pathMin d (Finset.range n) i + (d i 0 : WithTop ℚ) := by
    intro i _
    rw [hkGet_eq_pathMin d n n (Finset.range n) i (Finset.Subset.refl _)
      (by rw [Finset.card_range]; omega)]
  rw [List.map_congr_left hmap]
  apply le_antisymm
  · apply le_listMin
    intro a ha
    obtain ⟨t, htmem, rfl⟩ := List.mem_map.mp ha
    have ht : t.Perm (List.range n) := List.mem_permutations'.mp htmem
    obtain ⟨u, hu, hh, hcost⟩ := exists_head_zero d (by omega) ht
    obtain ⟨lc, hlcmem, humem, hulast⟩ := tour_mem_hkPaths hn hu hh
    have hune : u ≠ [] := hkPaths_ne_nil humem
    refine le_trans (listMin_le_of_mem (List.mem_map_of_mem _ hlcmem)) ?_
    rw [← hcost, cost_head_zero d hune hh, hulast]
    push_cast
    exact add_le_add_right (pathMin_le humem) _
  · apply le_listMin
    intro a ha
    obtain ⟨i, himem, rfl⟩ := List.mem_map.mp ha
    by_cases htop : pathMin d (Finset.range n) i = ⊤
    · rw [htop, top_add]
      exact le_top
    · obtain ⟨p, hp, hval⟩ := pathMin_attain htop
      have hpperm : p.Perm (List.range n) := by
        have := (mem_hkPaths.mp hp).1
        rwa [Finset.sort_range] at this
      have hpmem : p ∈ (List.range n).permutations' := List.mem_permutations'.mpr hpperm
      refine le_trans (listMin_le_of_mem (List.mem_map_of_mem _ hpmem)) ?_
      rw [cost_head_zero d (hkPaths_ne_nil hp) (mem_hkPaths.mp hp).2.1,
        hkPaths_getLastD hp]
      push_cast
      rw [hval]

/-- Full correctness of `held_karp` for validated sizes: it succeeds, its
cost is the global optimum, and its reconstructed tour is a Hamiltonian
tour achieving that cost. -/
theorem held_karp_spec (d : Dist) {n : ℕ} (h2 : 2 ≤ n) (h20 : n ≤ 20) :
    ∃ r, held_karp d n = .ok r ∧
      (r.cost : WithTop ℚ) = optimalCost d n ∧
      r.tour.Perm (List.range n) ∧
      calculate_tour_cost d r.tour = r.cost ∧
      r.is_optimal = true ∧ r.approximation_ratio = none ∧
      r.num_cities = n ∧ r.algorithm = "Held-Karp (Exact DP)" := by
  have hfin : optimalCost d n ≠ ⊤ := by
    have hmem : List.range n ∈ (List.range n).permutations' :=
      List.mem_permutations'.mpr (List.Perm.refl _)
    exact ne_top_of_le_ne_top (WithTop.coe_ne_top)
      (listMin_le_of_mem (List.mem_map_of_mem _ hmem))
  set M := listMin ((List.range' 1 (n - 1)).map fun i =>
    hkGet d n n (Finset.range n) i + (d i 0 : WithTop ℚ)) with hM
  have hMopt : M = optimalCost d n := heldKarp_final d n h2
  have hMne : M ≠ ⊤ := by rw [hMopt]; exact hfin
  obtain ⟨i0, hi0mem, hi0val⟩ := List.mem_map.mp (listMin_mem hMne)
  have hfindSome : ((List.range' 1 (n - 1)).find? fun i =>
      decide (hkGet d n n (Finset.range n) i + (d i 0 : WithTop ℚ) = M)).isSome := by
    rw [List.find?_isSome]
    exact ⟨i0, hi0mem, by rw [decide_eq_true_eq]; exact hi0val⟩
  obtain ⟨lc, hfind⟩ := Option.isSome_iff_exists.mp hfindSome
  have hlcmem : lc ∈ List.range' 1 (n - 1) := List.mem_of_find?_eq_some hfind
  have hlcval : hkGet d n n (Finset.range n) lc + (d lc 0 : WithTop ℚ) = M := by
    have := List.find?_some hfind
    rwa [decide_eq_true_eq] at this
  have hL1 : hkGet d n n (Finset.range n) lc = pathMin d (Finset.range n) lc :=
    hkGet_eq_pathMin d n n _ lc (Finset.Subset.refl _) (by rw [Finset.card_range]; omega)
  have hPne : pathMin d (Finset.range n) lc ≠ ⊤ := by
    intro htop
    rw [hL1, htop, top_add] at hlcval
    exact hMne hlcval.symm
  have hlcrange : lc ∈ Finset.range n := by
    rw [Finset.mem_range]
    have := List.mem_range'_1.mp hlcmem
    omega
  obtain ⟨w, hw, hwmem, hwcost⟩ := reconLoop_spec d n n (Finset.range n) lc [lc]
    (Finset.Subset.refl _) (le_of_eq (Finset.card_range n))
    (Finset.mem_range.mpr (by omega)) hlcrange hPne
  have htour : reconstruct_path_hk d n (Finset.range n) lc = w.reverse ++ [lc] := by
    rw [reconstruct_path_hk, hw, List.reverse_append, List.reverse_singleton]
  have hhk : held_karp d n = .ok
      { tour := reconstruct_path_hk d n (Finset.range n) lc
        cost := M.untop' 0
        algorithm := "Held-Karp (Exact DP)"
        num_cities := n
        is_optimal := true
        approximation_ratio := none } := by
    rw [held_karp, if_neg (by omega)]
    show (match (if M = ⊤ then none else (List.range' 1 (n - 1)).find? fun i =>
        decide (hkGet d n n (Finset.range n) i + (d i 0 : WithTop ℚ) = M)) with
      | none => Except.error TSPError.keyError
      | some lc => Except.ok
          { tour := reconstruct_path_hk d n (Finset.range n) lc
            cost := M.untop' 0
            algorithm := "Held-Karp (Exact DP)"
            num_cities := n
            is_optimal := true
            approximation_ratio := none } : Except TSPError TSPResult) = _
    rw [if_neg hMne, hfind]
  obtain ⟨c, hc⟩ := WithTop.ne_top_iff_exists.mp hMne
  have hcoe : ((M.untop' 0 : ℚ) : WithTop ℚ) = M := by
    rw [← hc, WithTop.untop'_coe]
  have hperm : (w.reverse ++ [lc]).Perm (List.range n) := by
    have := (mem_hkPaths.mp hwmem).1
    rwa [Finset.sort_range] at this
  have hcosttour : (calculate_tour_cost d (w.reverse ++ [lc]) : WithTop ℚ) = M := by
    rw [cost_head_zero d (hkPaths_ne_nil hwmem) (mem_hkPaths.mp hwmem).2.1,
      hkPaths_getLastD hwmem]
    push_cast
    rw [hwcost, ← hL1, hlcval]
  refine ⟨_, hhk, ?_, ?_, ?_, rfl, rfl, rfl, rfl⟩
  · rw [← hMopt]
    exact hcoe
  · rw [htour]
    exact hperm
  · show calculate_tour_cost d (reconstruct_path_hk d n (Finset.range n) lc) = M.untop' 0
    rw [htour]
    have := hcosttour.trans hcoe.symm
    exact_mod_cast this

/-! ### Correctness lemmas for nearest neighbour -/

theorem minKeyFirst_mem (f : ℕ → ℚ) : ∀ (l : List ℕ) (best : ℕ),
    minKeyFirst f l best ∈ best :: l := by
  intro l
  induction l with
  | nil =>
    intro best
    exact List.mem_cons_self _ _
  | cons x xs ih =>
    intro best
    show minKeyFirst f xs (if f x < f best then x else best) ∈ best :: x :: xs
    rcases List.mem_cons.mp (ih (if f x < f best then x else best)) with h1 | h1
    · rw [h1]
      by_cases hc : f x < f best
      · rw [if_pos hc]
        exact List.mem_cons_of_mem _ (List.mem_cons_self _ _)
      · rw [if_neg hc]
        exact List.mem_cons_self _ _
    · exact List.mem_cons_of_mem _ (List.mem_cons_of_mem _ h1)

theorem setMinBy_mem {n : ℕ} {s : Finset ℕ} (f : ℕ → ℚ) (hs : s.Nonempty)
    (hsub : s ⊆ Finset.range n) : setMinBy n f s ∈ s := by
  obtain ⟨x, hx⟩ := hs
  have hxl : x ∈ ascList n s := mem_ascList.mpr ⟨hx, Finset.mem_range.mp (hsub hx)⟩
  cases h : ascList n s with
  | nil =>
    rw [h] at hxl
    cases hxl
  | cons y ys =>
    have hres : setMinBy n f s = minKeyFirst f ys y := by rw [setMinBy, h]
    have hmem : minKeyFirst f ys y ∈ y :: ys := minKeyFirst_mem f ys y
    rw [← h] at hmem
    rw [hres]
    exact (mem_ascList.mp hmem).1

theorem toList_perm_cons_erase {s : Finset ℕ} {a : ℕ} (ha : a ∈ s) :
    s.toList.Perm (a :: (s.erase a).toList) := by
  rw [← Multiset.coe_eq_coe, ← Multiset.cons_coe, Finset.coe_toList, Finset.coe_toList,
    Finset.erase_val, Multiset.cons_erase (Finset.mem_val.mpr ha)]

theorem range_toList_perm (n : ℕ) : (Finset.range n).toList.Perm (List.range n) := by
  have h := Finset.sort_perm_toList (α := ℕ) (· ≤ ·) (Finset.range n)
  rw [Finset.sort_range] at h
  exact h.symm

theorem perm_range_of_nodup_toFinset {l : List ℕ} {n : ℕ} (hnd : l.Nodup)
    (h : l.toFinset = Finset.range n) : l.Perm (List.range n) := by
  refine (List.perm_ext_iff_of_nodup hnd (List.nodup_range n)).mpr ?_
  intro a
  rw [← List.mem_toFinset, h, Finset.mem_range, List.mem_range]

/-- Loop invariant of `nearest_neighbor`: the loop appends an enumeration
`w` of the unvisited set to the tour, adds the walk cost of
`current :: w` to the accumulator, and ends at the last city of the walk. -/
theorem nnLoop_spec (d : Dist) (n : ℕ) :
    ∀ (fuel : ℕ) (s : Finset ℕ) (current : ℕ) (tour : List ℕ) (total : ℚ),
      s ⊆ Finset.range n → s.card ≤ fuel →
      ∃ w, (nnLoop d n fuel s current tour total).1 = tour ++ w ∧
        w.Perm s.toList ∧
        (nnLoop d n fuel s current tour total).2.1
          = total + pathCost d (current :: w) ∧
        (nnLoop d n fuel s current tour total).2.2
          = (current :: w).getLastD 0 := by
  intro fuel
  induction fuel with
  | zero =>
    intro s current tour total hsub hcard
    have hs : s = ∅ := Finset.card_eq_zero.mp (Nat.le_zero.mp hcard)
    subst hs
    exact ⟨[], by rw [nnLoop, List.append_nil], by rw [Finset.toList_empty],
      by rw [nnLoop]; show total = total + pathCost d [current]; rw [pathCost]; ring,
      by rw [nnLoop]; rfl⟩
  | succ fuel ih =>
    intro s current tour total hsub hcard
    by_cases hne : s.Nonempty
    · have hnear : setMinBy n (fun x => d current x) s ∈ s := setMinBy_mem _ hne hsub
      set nr := setMinBy n (fun x => d current x) s with hnr
      have hstep : nnLoop d n (fuel + 1) s current tour total
          = nnLoop d n fuel (s.erase nr) nr (tour ++ [nr]) (total + d current nr) := by
        rw [nnLoop, if_pos hne]
      obtain ⟨w', h1, h2, h3, h4⟩ := ih (s.erase nr) nr (tour ++ [nr]) (total + d current nr)
        ((s.erase_subset nr).trans hsub)
        (by rw [Finset.card_erase_of_mem hnear]; omega)
      refine ⟨nr :: w', ?_, ?_, ?_, ?_⟩
      · rw [hstep, h1, List.append_assoc]
        rfl
      · exact ((h2.cons nr).trans (toList_perm_cons_erase hnear).symm)
      · rw [hstep, h3, pathCost_cons_cons]
        ring
      · rw [hstep, h4, getLastD_cons_of_ne_nil (List.cons_ne_nil nr w')]
    · rw [Finset.not_nonempty_iff_eq_empty] at hne
      subst hne
      refine ⟨[], ?_, by rw [Finset.toList_empty], ?_, ?_⟩
      · rw [nnLoop, if_neg (by simp), List.append_nil]
      · rw [nnLoop, if_neg (by simp)]
        show total = total + pathCost d [current]
        rw [pathCost]
        ring
      · rw [nnLoop, if_neg (by simp)]
        rfl

/-- Full correctness of `nearest_neighbor` on a valid starting city: it
succeeds, produces a Hamiltonian tour starting at `start`, and its cost
field is the tour's cyclic cost. -/
theorem nearest_neighbor_spec (d : Dist) {n : ℕ} {start : ℕ} (hs : start < n) :
    ∃ r, nearest_neighbor d n start = .ok r ∧
      r.tour.Perm (List.range n) ∧ r.tour.head? = some start ∧
      calculate_tour_cost d r.tour = r.cost ∧
      r.num_cities = n ∧ r.is_optimal = false ∧ r.approximation_ratio = none ∧
      r.algorithm = "Nearest Neighbor" := by
  have hstart : start ∈ Finset.range n := Finset.mem_range.mpr hs
  obtain ⟨w, h1, h2, h3, h4⟩ := nnLoop_spec d n n ((Finset.range n).erase start)
    start [start] 0 ((Finset.erase_subset start _).trans (Finset.Subset.refl _))
    (le_trans (Finset.card_le_card (Finset.erase_subset start _))
      (le_of_eq (Finset.card_range n)))
  have hnn : nearest_neighbor d n start = .ok
      { tour := (nnLoop d n n ((Finset.range n).erase start) start [start] 0).1
        cost := (nnLoop d n n ((Finset.range n).erase start) start [start] 0).2.1
          + d (nnLoop d n n ((Finset.range n).erase start) start [start] 0).2.2 start
        algorithm := "Nearest Neighbor"
        num_cities := n
        is_optimal := false
        approximation_ratio := none } := by
    rw [nearest_neighbor, if_pos hs]
  have htourEq : (nnLoop d n n ((Finset.range n).erase start) start [start] 0).1
      = start :: w := by
    rw [h1]
    rfl
  have hperm : (start :: w).Perm (List.range n) :=
    ((h2.cons start).trans (toList_perm_cons_erase hstart).symm).trans (range_toList_perm n)
  refine ⟨_, hnn, ?_, ?_, ?_, rfl, rfl, rfl, rfl⟩
  · rw [htourEq]
    exact hperm
  · rw [htourEq]
    rfl
  · show calculate_tour_cost d (nnLoop d n n ((Finset.range n).erase start) start [start] 0).1
      = _
    rw [htourEq, h3, h4, calculate_tour_cost_cons]
    show pathCost d (start :: w) + d ((start :: w).getLastD 0) start
      = 0 + pathCost d (start :: w) + d ((start :: w).getLastD 0) start
    ring

/-! ### Correctness lemmas for 2-opt -/

/-- Reversing a contiguous segment permutes the tour. -/
theorem twoOptSwap_perm (tour : List ℕ) {i j : ℕ} (h : i ≤ j + 1) :
    (twoOptSwap tour i j).Perm tour := by
  have hsplit : tour = tour.take i ++ ((tour.drop i).take (j + 1 - i) ++ tour.drop (j + 1)) := by
    have h1 : (tour.drop i).take (j + 1 - i) ++ (tour.drop i).drop (j + 1 - i)
        = tour.drop i := List.take_append_drop _ _
    have h2 : (tour.drop i).drop (j + 1 - i) = tour.drop (j + 1) := by
      rw [List.drop_drop]
      congr 1
      omega
    rw [← h2] at *
    conv_lhs => rw [← List.take_append_drop i tour, ← h1]
  rw [twoOptSwap, List.append_assoc]
  conv_rhs => rw [hsplit]
  exact ((List.reverse_perm _).append_right _).append_left _

theorem mem_scanPairs {n i j : ℕ} :
    (i, j) ∈ scanPairs n ↔ 1 ≤ i ∧ i < j ∧ j < n := by
  rw [scanPairs, List.mem_flatMap]
  constructor
  · rintro ⟨i', hi', hj⟩
    rw [List.mem_map] at hj
    obtain ⟨j', hj', heq⟩ := hj
    rw [Prod.mk.injEq] at heq
    obtain ⟨rfl, rfl⟩ := heq
    rw [List.mem_range'_1] at hi' hj'
    omega
  · rintro ⟨h1, h2, h3⟩
    refine ⟨i, List.mem_range'_1.mpr (by omega), List.mem_map.mpr
      ⟨j, List.mem_range'_1.mpr (by omega), rfl⟩⟩

/-- Strict lexicographic order on scanned position pairs: the scan order
of the nested loops. -/
def pairLt (p q : ℕ × ℕ) : Prop := p.1 < q.1 ∨ (p.1 = q.1 ∧ p.2 < q.2)

instance (p q : ℕ × ℕ) : Decidable (pairLt p q) :=
  decidable_of_iff (p.1 < q.1 ∨ (p.1 = q.1 ∧ p.2 < q.2)) Iff.rfl

/-- The nested loops enumerate the pairs in strictly increasing
lexicographic order. -/
theorem scanPairs_pairwise (n : ℕ) : List.Pairwise pairLt (scanPairs n) := by
  rw [scanPairs, List.pairwise_flatMap]
  constructor
  · intro i _
    rw [List.pairwise_map]
    exact (List.pairwise_lt_range' _ _).imp fun hab => Or.inr ⟨rfl, hab⟩
  · refine (List.pairwise_lt_range' _ _).imp ?_
    intro a b hab
    intro x hx y hy
    obtain ⟨jx, -, rfl⟩ := List.mem_map.mp hx
    obtain ⟨jy, -, rfl⟩ := List.mem_map.mp hy
    exact Or.inl hab

/-- The loop never returns a cost above its entry `best_cost`. -/
theorem twoOptLoop_le (d : Dist) (n : ℕ) :
    ∀ (k : ℕ) (tour : List ℕ) (best : ℚ), (twoOptLoop d n k tour best).2 ≤ best := by
  intro k
  induction k with
  | zero => intro tour best; exact le_refl _
  | succ k ih =>
    intro tour best
    cases hfind : (scanPairs n).find? (fun p =>
        decide (calculate_tour_cost d (twoOptSwap tour p.1 p.2) < best)) with
    | none =>
      rw [twoOptLoop, hfind]
    | some p =>
      have hlt : calculate_tour_cost d (twoOptSwap tour p.1 p.2) < best := by
        have := List.find?_some hfind
        rwa [decide_eq_true_eq] at this
      rw [twoOptLoop, hfind]
      exact le_trans (ih _ _) (le_of_lt hlt)

/-- The accumulator `best_cost` always equals the cost of the current
tour. -/
theorem twoOptLoop_costEq (d : Dist) (n : ℕ) :
    ∀ (k : ℕ) (tour : List ℕ) (best : ℚ), best = calculate_tour_cost d tour →
      (twoOptLoop d n k tour best).2
        = calculate_tour_cost d (twoOptLoop d n k tour best).1 := by
  intro k
  induction k with
  | zero => intro tour best h; exact h
  | succ k ih =>
    intro tour best h
    cases hfind : (scanPairs n).find? (fun p =>
        decide (calculate_tour_cost d (twoOptSwap tour p.1 p.2) < best)) with
    | none =>
      rw [twoOptLoop, hfind]
      exact h
    | some p =>
      rw [twoOptLoop, hfind]
      exact ih _ _ rfl

/-- The loop only rearranges the tour: its result is a permutation of its
input. -/
theorem twoOptLoop_perm (d : Dist) (n : ℕ) :
    ∀ (k : ℕ) (tour : List ℕ) (best : ℚ),
      (twoOptLoop d n k tour best).1.Perm tour := by
  intro k
  induction k with
  | zero => intro tour best; exact List.Perm.refl _
  | succ k ih =>
    intro tour best
    cases hfind : (scanPairs n).find? (fun p =>
        decide (calculate_tour_cost d (twoOptSwap tour p.1 p.2) < best)) with
    | none =>
      rw [twoOptLoop, hfind]
    | some p =>
      have hmem : p ∈ scanPairs n := List.mem_of_find?_eq_some hfind
      have hij : 1 ≤ p.1 ∧ p.1 < p.2 ∧ p.2 < n := by
        have := @mem_scanPairs n p.1 p.2
        rw [Prod.mk.eta] at this
        exact this.mp hmem
      rw [twoOptLoop, hfind]
      exact (ih _ _).trans (twoOptSwap_perm tour (by omega))

/-- One more allowed iteration never increases the returned cost. -/
theorem twoOptLoop_mono (d : Dist) (n : ℕ) :
    ∀ (k : ℕ) (tour : List ℕ) (best : ℚ),
      (twoOptLoop d n (k + 1) tour best).2 ≤ (twoOptLoop d n k tour best).2 := by
  intro k
  induction k with
  | zero =>
    intro tour best
    exact twoOptLoop_le d n 1 tour best
  | succ k ih =>
    intro tour best
    cases hfind : (scanPairs n).find? (fun p =>
        decide (calculate_tour_cost d (twoOptSwap tour p.1 p.2) < best)) with
    | none =>
      have e1 : twoOptLoop d n (k + 1 + 1) tour best = (tour, best) := by
        rw [twoOptLoop, hfind]
      have e2 : twoOptLoop d n (k + 1) tour best = (tour, best) := by
        rw [twoOptLoop, hfind]
      rw [e1, e2]
    | some p =>
      have e1 : twoOptLoop d n (k + 1 + 1) tour best
          = twoOptLoop d n (k + 1) (twoOptSwap tour p.1 p.2)
            (calculate_tour_cost d (twoOptSwap tour p.1 p.2)) := by
        rw [twoOptLoop, hfind]
      have e2 : twoOptLoop d n (k + 1) tour best
          = twoOptLoop d n k (twoOptSwap tour p.1 p.2)
            (calculate_tour_cost d (twoOptSwap tour p.1 p.2)) := by
        rw [twoOptLoop, hfind]
      rw [e1, e2]
      exact ih _ _

/-- Cost monotonicity in the iteration budget. -/
theorem twoOptLoop_mono_le (d : Dist) (n : ℕ) {k k' : ℕ} (h : k ≤ k')
    (tour : List ℕ) (best : ℚ) :
    (twoOptLoop d n k' tour best).2 ≤ (twoOptLoop d n k tour best).2 := by
  induction h with
  | refl => exact le_refl _
  | step h ih => exact le_trans (twoOptLoop_mono d n _ tour best) ih

/-! ### Adjacency-structure utilities for the Christofides pipeline -/

theorem getD_out {g : List (List ℕ)} {a : ℕ} (h : g.length ≤ a) : g.getD a [] = [] := by
  rw [List.getD_eq_getElem?_getD, List.getElem?_eq_none h]
  rfl

theorem getD_set (g : List (List ℕ)) (i : ℕ) (l : List ℕ) (a : ℕ) :
    (g.set i l).getD a [] = if a = i ∧ i < g.length then l else g.getD a [] := by
  by_cases hc : a = i ∧ i < g.length
  · obtain ⟨rfl, hlt⟩ := hc
    rw [if_pos ⟨rfl, hlt⟩, List.getD_eq_getElem?_getD, List.getElem?_set,
      if_pos rfl, if_pos hlt]
    rfl
  · rw [if_neg hc]
    by_cases ha : a = i
    · subst ha
      have hge : g.length ≤ a := by
        rcases Nat.lt_or_ge a g.length with h1 | h1
        · exact absurd ⟨rfl, h1⟩ hc
        · exact h1
      rw [getD_out (by rw [List.length_set]; exact hge), getD_out hge]
    · rw [List.getD_eq_getElem?_getD, List.getElem?_set, if_neg (fun h => ha h.symm),
        List.getD_eq_getElem?_getD]

theorem getD_mem {g : List (List ℕ)} {a : ℕ} (h : g.getD a [] ≠ []) :
    g.getD a [] ∈ g := by
  rcases Nat.lt_or_ge a g.length with hlt | hge
  · rw [List.getD_eq_getElem?_getD, List.getElem?_eq_getElem hlt]
    exact List.getElem_mem _
  · exact absurd (getD_out hge) h

/-- All vertices stored in the adjacency lists (analysis helper). -/
def gVerts (g : List (List ℕ)) : Finset ℕ :=
  g.foldr (fun l acc => l.toFinset ∪ acc) ∅

theorem mem_gVerts {g : List (List ℕ)} {x : ℕ} :
    x ∈ gVerts g ↔ ∃ l ∈ g, x ∈ l := by
  induction g with
  | nil => simp [gVerts]
  | cons l g ih =>
    show x ∈ l.toFinset ∪ _ ↔ _
    rw [Finset.mem_union, List.mem_toFinset]
    constructor
    · rintro (h | h)
      · exact ⟨l, List.mem_cons_self _ _, h⟩
      · obtain ⟨l', hl', hx⟩ := ih.mp h
        exact ⟨l', List.mem_cons_of_mem _ hl', hx⟩
    · rintro ⟨l', hl', hx⟩
      rcases List.mem_cons.mp hl' with rfl | hl'
      · exact Or.inl hx
      · exact Or.inr (ih.mpr ⟨l', hl', hx⟩)

theorem mem_gVerts_of_getD {g : List (List ℕ)} {a x : ℕ} (h : x ∈ g.getD a []) :
    x ∈ gVerts g := by
  have hne : g.getD a [] ≠ [] := by
    intro habs
    rw [habs] at h
    cases h
  exact mem_gVerts.mpr ⟨g.getD a [], getD_mem hne, h⟩

theorem mem_gVerts_set {g : List (List ℕ)} {i : ℕ} {l' : List ℕ} {x : ℕ}
    (h : x ∈ gVerts (g.set i l')) : x ∈ gVerts g ∨ x ∈ l' := by
  obtain ⟨l, hl, hx⟩ := mem_gVerts.mp h
  rcases List.mem_or_eq_of_mem_set hl with hl | rfl
  · exact Or.inl (mem_gVerts.mpr ⟨l, hl, hx⟩)
  · exact Or.inr hx

theorem gSize_set {g : List (List ℕ)} {i : ℕ} (h : i < g.length) (l : List ℕ) :
    gSize (g.set i l) + (g.getD i []).length = gSize g + l.length := by
  induction g generalizing i with
  | nil => cases h
  | cons l0 g ih =>
    cases i with
    | zero =>
      show gSize (l :: g) + l0.length = gSize (l0 :: g) + l.length
      show l.length + gSize g + l0.length = l0.length + gSize g + l.length
      ring
    | succ i =>
      have hi : i < g.length := Nat.lt_of_succ_lt_succ h
      show gSize (l0 :: g.set i l) + (g.getD i []).length = gSize (l0 :: g) + l.length
      show l0.length + gSize (g.set i l) + (g.getD i []).length
        = l0.length + gSize g + l.length
      have := ih hi
      omega

theorem gSize_set_le {g : List (List ℕ)} {i : ℕ} {l : List ℕ}
    (h : l.length ≤ (g.getD i []).length) : gSize (g.set i l) ≤ gSize g := by
  rcases Nat.lt_or_ge i g.length with hlt | hge
  · have := gSize_set hlt l
    omega
  · rw [List.set_eq_of_length_le hge]

/-! ### Prim's loop spans all cities -/

theorem entryMinFirst_mem : ∀ (l : List (ℚ × ℕ × ℕ)) (best : ℚ × ℕ × ℕ),
    entryMinFirst l best ∈ best :: l := by
  intro l
  induction l with
  | nil => intro best; exact List.mem_cons_self _ _
  | cons x xs ih =>
    intro best
    show entryMinFirst xs (if entryLe x best && !(entryLe best x) then x else best)
      ∈ best :: x :: xs
    rcases List.mem_cons.mp (ih (if entryLe x best && !(entryLe best x) then x else best))
      with h1 | h1
    · rw [h1]
      by_cases hc : (entryLe x best && !(entryLe best x)) = true
      · rw [if_pos hc]
        exact List.mem_cons_of_mem _ (List.mem_cons_self _ _)
      · rw [if_neg hc]
        exact List.mem_cons_self _ _
    · exact List.mem_cons_of_mem _ (List.mem_cons_of_mem _ h1)

theorem heapPop_none {edges : List (ℚ × ℕ × ℕ)} (h : heapPop edges = none) :
    edges = [] := by
  cases edges with
  | nil => rfl
  | cons x xs => exact Option.noConfusion h

theorem heapPop_some {edges : List (ℚ × ℕ × ℕ)} {m : ℚ × ℕ × ℕ}
    {rest : List (ℚ × ℕ × ℕ)} (h : heapPop edges = some (m, rest)) :
    m ∈ edges ∧ rest = edges.erase m := by
  cases edges with
  | nil => exact Option.noConfusion h
  | cons x xs =>
    have h' := Option.some.inj h
    rw [Prod.mk.injEq] at h'
    obtain ⟨h1, h2⟩ := h'
    rw [← h1, ← h2]
    exact ⟨entryMinFirst_mem xs x, rfl⟩

/-- Undirected adjacency along a list of edges. -/
def edgeRel (E : List (ℕ × ℕ)) (a b : ℕ) : Prop := (a, b) ∈ E ∨ (b, a) ∈ E

theorem edgeRel_mono {E E' : List (ℕ × ℕ)} (h : ∀ e ∈ E, e ∈ E') {a b : ℕ}
    (hr : edgeRel E a b) : edgeRel E' a b := by
  rcases hr with h1 | h1
  · exact Or.inl (h _ h1)
  · exact Or.inr (h _ h1)

theorem reach_mono {E E' : List (ℕ × ℕ)} (h : ∀ e ∈ E, e ∈ E') {a b : ℕ} :
    Relation.ReflTransGen (edgeRel E) a b → Relation.ReflTransGen (edgeRel E') a b :=
  Relation.ReflTransGen.mono fun _ _ => edgeRel_mono h

/-- Invariant of Prim's loop: with the heap always holding an edge into
every unvisited city and enough fuel, the loop returns an edge list over
the `n` cities that connects every city to city 0. -/
theorem primLoop_spec (d : Dist) (n : ℕ) :
    ∀ (fuel : ℕ) (visited : Finset ℕ) (edges : List (ℚ × ℕ × ℕ)) (mst : List (ℕ × ℕ)),
      visited ⊆ Finset.range n →
      (∀ v ∈ visited, Relation.ReflTransGen (edgeRel mst) 0 v) →
      (∀ e ∈ edges, e.2.1 ∈ visited ∧ e.2.2 < n) →
      (∀ j, j < n → j ∉ visited → ∃ w u, (w, u, j) ∈ edges) →
      (∀ e ∈ mst, e.1 < n ∧ e.2 < n) →
      edges.length + (n - visited.card) * n ≤ fuel →
      (∀ e ∈ primLoop d n fuel visited edges mst, e.1 < n ∧ e.2 < n) ∧
      (∀ j, j < n →
        Relation.ReflTransGen (edgeRel (primLoop d n fuel visited edges mst)) 0 j) := by
  intro fuel
  induction fuel with
  | zero =>
    intro visited edges mst hsub hreach hheap hcov hmst hfuel
    rw [primLoop]
    refine ⟨hmst, ?_⟩
    intro j hj
    have hzero : (n - visited.card) * n = 0 := by omega
    rcases Nat.mul_eq_zero.mp hzero with h1 | h1
    · have hv : visited = Finset.range n :=
        Finset.eq_of_subset_of_card_le hsub (by rw [Finset.card_range]; omega)
      exact hreach j (hv ▸ Finset.mem_range.mpr hj)
    · omega
  | succ fuel ih =>
    intro visited edges mst hsub hreach hheap hcov hmst hfuel
    by_cases hcard : visited.card < n
    · cases hpop : heapPop edges with
      | none =>
        have hnil : edges = [] := heapPop_none hpop
        have hex : ∃ j, j < n ∧ j ∉ visited := by
          by_contra hno
          push_neg at hno
          have hss : Finset.range n ⊆ visited := fun j hj => hno j (Finset.mem_range.mp hj)
          have := Finset.card_le_card hss
          rw [Finset.card_range] at this
          omega
        obtain ⟨j, hj, hjv⟩ := hex
        obtain ⟨w, u, hwu⟩ := hcov j hj hjv
        rw [hnil] at hwu
        cases hwu
      | some me =>
        obtain ⟨⟨w, u, v⟩, rest⟩ := me
        obtain ⟨hmem, hrest⟩ := heapPop_some hpop
        have hv_lt : v < n := (hheap _ hmem).2
        have hu_vis : u ∈ visited := (hheap _ hmem).1
        have hrlen : rest.length = edges.length - 1 := by
          rw [hrest]
          exact List.length_erase_of_mem hmem
        have hlen_pos : 0 < edges.length := List.length_pos.mpr (List.ne_nil_of_mem hmem)
        by_cases hvv : v ∈ visited
        · have hred : primLoop d n (fuel + 1) visited edges mst
              = primLoop d n fuel visited rest mst := by
            rw [primLoop, if_pos hcard]
            simp only [hpop]
            rw [if_pos hvv]
          rw [hred]
          apply ih visited rest mst hsub hreach
          · intro e he
            exact hheap e (by rw [hrest] at he; exact List.mem_of_mem_erase he)
          · intro j hj hjv
            obtain ⟨w', u', hwu⟩ := hcov j hj hjv
            have hne : (w', u', j) ≠ (w, u, v) := by
              intro habs
              rw [Prod.mk.injEq] at habs
              obtain ⟨-, h2⟩ := habs
              rw [Prod.mk.injEq] at h2
              exact hjv (h2.2 ▸ hvv)
            exact ⟨w', u', by rw [hrest]; exact (List.mem_erase_of_ne hne).mpr hwu⟩
          · exact hmst
          · omega
        · have hred : primLoop d n (fuel + 1) visited edges mst
              = primLoop d n fuel (insert v visited)
                (rest ++ ((List.range n).filter fun j => j ∉ insert v visited).map
                  fun j => (d v j, v, j))
                (mst ++ [(u, v)]) := by
            rw [primLoop, if_pos hcard]
            simp only [hpop]
            rw [if_neg hvv]
          rw [hred]
          apply ih (insert v visited) _ (mst ++ [(u, v)])
          · intro x hx
            rcases Finset.mem_insert.mp hx with rfl | hx
            · exact Finset.mem_range.mpr hv_lt
            · exact hsub hx
          · intro x hx
            have hmono : ∀ e ∈ mst, e ∈ mst ++ [(u, v)] := fun e he =>
              List.mem_append_left _ he
            rcases Finset.mem_insert.mp hx with rfl | hx
            · refine Relation.ReflTransGen.tail (reach_mono hmono (hreach u hu_vis)) ?_
              exact Or.inl (List.mem_append_right _ (List.mem_singleton_self _))
            · exact reach_mono hmono (hreach x hx)
          · intro e he
            rcases List.mem_append.mp he with he | he
            · have := hheap e (by rw [hrest] at he; exact List.mem_of_mem_erase he)
              exact ⟨Finset.mem_insert_of_mem this.1, this.2⟩
            · obtain ⟨j, hj, rfl⟩ := List.mem_map.mp he
              exact ⟨Finset.mem_insert_self _ _,
                List.mem_range.mp (List.mem_filter.mp hj).1⟩
          · intro j hj hjv
            refine ⟨d v j, v, List.mem_append_right _ ?_⟩
            exact List.mem_map_of_mem _
              (List.mem_filter.mpr ⟨List.mem_range.mpr hj, decide_eq_true hjv⟩)
          · intro e he
            rcases List.mem_append.mp he with he | he
            · exact hmst e he
            · rw [List.mem_singleton] at he
              subst he
              exact ⟨Finset.mem_range.mp (hsub hu_vis), hv_lt⟩
          · have hplen : (((List.range n).filter fun j => j ∉ insert v visited).map
                fun j => (d v j, v, j)).length ≤ n := by
              rw [List.length_map]
              exact le_trans (List.length_filter_le _ _) (le_of_eq (List.length_range n))
            have hcard' : (insert v visited).card = visited.card + 1 :=
              Finset.card_insert_of_not_mem hvv
            have hmul : (n - visited.card) * n = (n - visited.card - 1) * n + n := by
              obtain ⟨k, hk⟩ : ∃ k, n - visited.card = k + 1 :=
                ⟨n - visited.card - 1, by omega⟩
              rw [hk, Nat.succ_mul, Nat.add_sub_cancel]
            rw [List.length_append, hcard']
            have hsubc : n - (visited.card + 1) = n - visited.card - 1 := by omega
            rw [hsubc]
            omega
    · rw [primLoop, if_neg hcard]
      refine ⟨hmst, ?_⟩
      intro j hj
      have hv : visited = Finset.range n :=
        Finset.eq_of_subset_of_card_le hsub (by rw [Finset.card_range]; omega)
      exact hreach j (hv ▸ Finset.mem_range.mpr hj)

/-- `compute_mst` returns an edge list over the `n` cities that connects
every city to city 0. -/
theorem compute_mst_spec (d : Dist) (n : ℕ) (hn : 1 ≤ n) :
    (∀ e ∈ compute_mst d n, e.1 < n ∧ e.2 < n) ∧
    (∀ j, j < n → Relation.ReflTransGen (edgeRel (compute_mst d n)) 0 j) := by
  rw [compute_mst]
  apply primLoop_spec d n _ {0} _ []
  · intro x hx
    rw [Finset.mem_singleton] at hx
    subst hx
    exact Finset.mem_range.mpr hn
  · intro v hv
    rw [Finset.mem_singleton] at hv
    subst hv
    exact Relation.ReflTransGen.refl
  · intro e he
    obtain ⟨j, hj, rfl⟩ := List.mem_map.mp he
    rw [List.mem_range'_1] at hj
    exact ⟨Finset.mem_singleton_self 0, by show j < n; omega⟩
  · intro j hj hjv
    rw [Finset.mem_singleton] at hjv
    exact ⟨d 0 j, 0, List.mem_map_of_mem _
      (List.mem_range'_1.mpr ⟨by omega, by omega⟩)⟩
  · intro e he
    cases he
  · rw [List.length_map, List.length_range', Finset.card_singleton]
    have h1 : (n - 1) * n ≤ n * n := Nat.mul_le_mul_right n (by omega)
    omega

/-! ### Odd-degree vertices and greedy matching stay inside the city set -/

theorem find_odd_mem {n : ℕ} {mst : List (ℕ × ℕ)} {i : ℕ}
    (h : i ∈ find_odd_degree_vertices n mst) : i < n :=
  List.mem_range.mp (List.mem_filter.mp h).1

theorem matchLoop_mem (d : Dist) (n : ℕ) :
    ∀ (fuel : ℕ) (s : Finset ℕ) (acc : List (ℕ × ℕ)), s ⊆ Finset.range n →
      ∀ e ∈ matchLoop d n fuel s acc, e ∈ acc ∨ (e.1 ∈ s ∧ e.2 ∈ s) := by
  intro fuel
  induction fuel with
  | zero =>
    intro s acc _ e he
    rw [matchLoop] at he
    exact Or.inl he
  | succ fuel ih =>
    intro s acc hsub e he
    rw [matchLoop] at he
    by_cases hne : s.Nonempty
    · rw [dif_pos hne] at he
      by_cases hrest : (s.erase (s.min' hne)).Nonempty
      · rw [if_pos hrest] at he
        have hsub1 : s.erase (s.min' hne) ⊆ Finset.range n :=
          (s.erase_subset _).trans hsub
        have hnear := setMinBy_mem (fun u => d (s.min' hne) u) hrest hsub1
        rcases ih _ _ (((s.erase (s.min' hne)).erase_subset _).trans hsub1) e he
          with h | h
        · rcases List.mem_append.mp h with h | h
          · exact Or.inl h
          · rw [List.mem_singleton] at h
            subst h
            exact Or.inr ⟨s.min'_mem hne, Finset.mem_of_mem_erase hnear⟩
        · exact Or.inr ⟨Finset.mem_of_mem_erase (Finset.mem_of_mem_erase h.1),
            Finset.mem_of_mem_erase (Finset.mem_of_mem_erase h.2)⟩
      · rw [if_neg hrest] at he
        exact Or.inl he
    · rw [dif_neg hne] at he
      exact Or.inl he

theorem min_weight_matching_mem {d : Dist} {n : ℕ} {odd : List ℕ}
    (hodd : ∀ i ∈ odd, i < n) :
    ∀ e ∈ min_weight_matching d n odd, e.1 < n ∧ e.2 < n := by
  intro e he
  rw [min_weight_matching] at he
  have hsub : odd.toFinset ⊆ Finset.range n := by
    intro x hx
    exact Finset.mem_range.mpr (hodd x (List.mem_toFinset.mp hx))
  rcases matchLoop_mem d n odd.length odd.toFinset [] hsub e he with h | h
  · cases h
  · exact ⟨Finset.mem_range.mp (hsub h.1), Finset.mem_range.mp (hsub h.2)⟩

/-! ### The combined multigraph -/

theorem addEdge_length (g : List (List ℕ)) (e : ℕ × ℕ) :
    (addEdge g e).length = g.length := by
  rw [addEdge, List.length_set, List.length_set]

theorem foldl_addEdge_length (E : List (ℕ × ℕ)) : ∀ (g : List (List ℕ)),
    (E.foldl addEdge g).length = g.length := by
  induction E with
  | nil => intro g; rfl
  | cons e E ih =>
    intro g
    rw [List.foldl_cons, ih, addEdge_length]

theorem combine_length (n : ℕ) (mst matching : List (ℕ × ℕ)) :
    (combine_mst_matching n mst matching).length = n := by
  rw [combine_mst_matching, foldl_addEdge_length, List.length_replicate]

theorem addEdge_mono {g : List (List ℕ)} (e : ℕ × ℕ) {a x : ℕ}
    (h : x ∈ g.getD a []) : x ∈ (addEdge g e).getD a [] := by
  have h1 : x ∈ (g.set e.1 (g.getD e.1 [] ++ [e.2])).getD a [] := by
    rw [getD_set]
    by_cases hc : a = e.1 ∧ e.1 < g.length
    · rw [if_pos hc]
      obtain ⟨rfl, -⟩ := hc
      exact List.mem_append_left _ h
    · rw [if_neg hc]
      exact h
  rw [addEdge, getD_set]
  by_cases hc : a = e.2 ∧ e.2 < (g.set e.1 (g.getD e.1 [] ++ [e.2])).length
  · rw [if_pos hc]
    obtain ⟨rfl, -⟩ := hc
    exact List.mem_append_left _ h1
  · rw [if_neg hc]
    exact h1

theorem foldl_addEdge_mono (E : List (ℕ × ℕ)) : ∀ (g : List (List ℕ)) (a x : ℕ),
    x ∈ g.getD a [] → x ∈ (E.foldl addEdge g).getD a [] := by
  induction E with
  | nil => intro g a x h; exact h
  | cons e E ih =>
    intro g a x h
    exact ih _ _ _ (addEdge_mono e h)

theorem addEdge_self (g : List (List ℕ)) (e : ℕ × ℕ) (h1 : e.1 < g.length)
    (h2 : e.2 < g.length) :
    e.2 ∈ (addEdge g e).getD e.1 [] ∧ e.1 ∈ (addEdge g e).getD e.2 [] := by
  constructor
  · by_cases huv : e.1 = e.2
    · rw [addEdge, getD_set, if_pos ⟨huv, by rw [List.length_set]; exact h2⟩]
      rw [← huv]
      exact List.mem_append_right _ (by rw [huv]; exact List.mem_singleton_self _)
    · rw [addEdge, getD_set, if_neg (by rintro ⟨h, -⟩; exact huv h),
        getD_set, if_pos ⟨rfl, h1⟩]
      exact List.mem_append_right _ (List.mem_singleton_self _)
  · rw [addEdge, getD_set, if_pos ⟨rfl, by rw [List.length_set]; exact h2⟩]
    exact List.mem_append_right _ (List.mem_singleton_self _)

theorem foldl_addEdge_adj (E : List (ℕ × ℕ)) : ∀ (g : List (List ℕ)),
    (∀ e ∈ E, e.1 < g.length ∧ e.2 < g.length) →
    ∀ e ∈ E, e.2 ∈ ((E.foldl addEdge g).getD e.1 []) ∧
      e.1 ∈ ((E.foldl addEdge g).getD e.2 []) := by
  induction E with
  | nil => intro g _ e he; cases he
  | cons e0 E ih =>
    intro g hlen e he
    rw [List.foldl_cons]
    rcases List.mem_cons.mp he with rfl | he
    · have h0 := addEdge_self g e (hlen e (List.mem_cons_self _ _)).1
        (hlen e (List.mem_cons_self _ _)).2
      exact ⟨foldl_addEdge_mono E _ _ _ h0.1, foldl_addEdge_mono E _ _ _ h0.2⟩
    · apply ih (addEdge g e0) ?_ e he
      intro e' he'
      rw [addEdge_length]
      exact hlen e' (List.mem_cons_of_mem _ he')

theorem combine_adj {n : ℕ} {mst matching : List (ℕ × ℕ)}
    (hlen : ∀ e ∈ mst ++ matching, e.1 < n ∧ e.2 < n) :
    ∀ e ∈ mst ++ matching,
      e.2 ∈ ((combine_mst_matching n mst matching).getD e.1 []) ∧
      e.1 ∈ ((combine_mst_matching n mst matching).getD e.2 []) := by
  rw [combine_mst_matching]
  apply foldl_addEdge_adj
  intro e he
  rw [List.length_replicate]
  exact hlen e he

theorem gVerts_replicate (n : ℕ) : gVerts (List.replicate n ([] : List ℕ)) = ∅ := by
  induction n with
  | zero => rfl
  | succ n ih =>
    rw [List.replicate_succ]
    show ([] : List ℕ).toFinset ∪ gVerts (List.replicate n []) = ∅
    rw [ih, List.toFinset_nil, Finset.empty_union]

theorem mem_gVerts_addEdge {g : List (List ℕ)} {e : ℕ × ℕ} {x : ℕ}
    (h : x ∈ gVerts (addEdge g e)) : x ∈ gVerts g ∨ x = e.1 ∨ x = e.2 := by
  rw [addEdge] at h
  rcases mem_gVerts_set h with h | h
  · rcases mem_gVerts_set h with h | h
    · exact Or.inl h
    · rcases List.mem_append.mp h with h | h
      · exact Or.inl (mem_gVerts_of_getD h)
      · rw [List.mem_singleton] at h
        exact Or.inr (Or.inr h)
  · rcases List.mem_append.mp h with h | h
    · rw [getD_set] at h
      by_cases hc : e.2 = e.1 ∧ e.1 < g.length
      · rw [if_pos hc] at h
        rcases List.mem_append.mp h with h | h
        · exact Or.inl (mem_gVerts_of_getD h)
        · rw [List.mem_singleton] at h
          exact Or.inr (Or.inr h)
      · rw [if_neg hc] at h
        exact Or.inl (mem_gVerts_of_getD h)
    · rw [List.mem_singleton] at h
      exact Or.inr (Or.inl h)

theorem gVerts_foldl_addEdge (E : List (ℕ × ℕ)) : ∀ (g : List (List ℕ)) (x : ℕ),
    x ∈ gVerts (E.foldl addEdge g) → x ∈ gVerts g ∨ ∃ e ∈ E, x = e.1 ∨ x = e.2 := by
  induction E with
  | nil => intro g x h; exact Or.inl h
  | cons e0 E ih =>
    intro g x h
    rw [List.foldl_cons] at h
    rcases ih _ _ h with h | h
    · rcases mem_gVerts_addEdge h with h | h
      · exact Or.inl h
      · exact Or.inr ⟨e0, List.mem_cons_self _ _, h⟩
    · obtain ⟨e, he, hx⟩ := h
      exact Or.inr ⟨e, List.mem_cons_of_mem _ he, hx⟩

theorem combine_gVerts {n : ℕ} {mst matching : List (ℕ × ℕ)} {x : ℕ}
    (h : x ∈ gVerts (combine_mst_matching n mst matching)) :
    ∃ e ∈ mst ++ matching, x = e.1 ∨ x = e.2 := by
  rw [combine_mst_matching] at h
  rcases gVerts_foldl_addEdge _ _ _ h with h | h
  · rw [gVerts_replicate] at h
    exact absurd h (Finset.not_mem_empty x)
  · exact h

/-! ### The Hierholzer loop visits every city connected to its start -/

theorem eulerLoop_nil (fuel : ℕ) (g : List (List ℕ)) (circuit : List ℕ) :
    eulerLoop (fuel + 1) g [] circuit = circuit := by
  rw [eulerLoop]

theorem eulerLoop_pop {g : List (List ℕ)} {current : ℕ} (fuel : ℕ) (stk circuit : List ℕ)
    (h : g.getD current [] = []) :
    eulerLoop (fuel + 1) g (current :: stk) circuit
      = eulerLoop fuel g stk (circuit ++ [current]) := by
  rw [eulerLoop]
  simp only [h]

theorem eulerLoop_push {g : List (List ℕ)} {current a : ℕ} {as : List ℕ}
    (fuel : ℕ) (stk circuit : List ℕ) (h : g.getD current [] = a :: as) :
    eulerLoop (fuel + 1) g (current :: stk) circuit
      = eulerLoop fuel
          ((g.set current (a :: as).dropLast).set ((a :: as).getLast (by simp))
            (((g.set current (a :: as).dropLast).getD
              ((a :: as).getLast (by simp)) []).erase current))
          ((a :: as).getLast (by simp) :: current :: stk) circuit := by
  rw [eulerLoop]
  simp only [h]

theorem euler_fuel_step {g : List (List ℕ)} {current a : ℕ} {as : List ℕ}
    (hadj : g.getD current [] = a :: as) (L : ℕ) {fuel : ℕ}
    (hfuel : 2 * gSize g + (L + 1) ≤ fuel + 1) :
    2 * gSize ((g.set current (a :: as).dropLast).set ((a :: as).getLast (by simp))
      (((g.set current (a :: as).dropLast).getD
        ((a :: as).getLast (by simp)) []).erase current)) + (L + 2) ≤ fuel := by
  have hcur_lt : current < g.length := by
    by_contra hge
    rw [getD_out (Nat.le_of_not_lt hge)] at hadj
    exact List.noConfusion hadj
  have h1 := gSize_set hcur_lt ((a :: as).dropLast)
  rw [hadj] at h1
  have h2 : gSize ((g.set current (a :: as).dropLast).set ((a :: as).getLast (by simp))
      (((g.set current (a :: as).dropLast).getD
        ((a :: as).getLast (by simp)) []).erase current))
      ≤ gSize (g.set current (a :: as).dropLast) :=
    gSize_set_le ((List.erase_sublist _ _).length_le)
  have h3 : ((a :: as).dropLast).length + 1 = (a :: as).length := by
    rw [List.length_dropLast, List.length_cons]
    omega
  omega

/-- Whatever the loop outputs was already in the circuit, on the stack, or
stored in the adjacency structure. -/
theorem eulerLoop_subset : ∀ (fuel : ℕ) (g : List (List ℕ)) (path circuit : List ℕ),
    ∀ x ∈ eulerLoop fuel g path circuit,
      x ∈ circuit ∨ x ∈ path ∨ x ∈ gVerts g := by
  intro fuel
  induction fuel with
  | zero => intro g path circuit x hx; exact Or.inl hx
  | succ fuel ih =>
    intro g path circuit x hx
    cases path with
    | nil =>
      rw [eulerLoop_nil] at hx
      exact Or.inl hx
    | cons current stk =>
      cases hadj : g.getD current [] with
      | nil =>
        rw [eulerLoop_pop fuel stk circuit hadj] at hx
        rcases ih _ _ _ x hx with h | h | h
        · rcases List.mem_append.mp h with h | h
          · exact Or.inl h
          · rw [List.mem_singleton] at h
            exact Or.inr (Or.inl (h ▸ List.mem_cons_self _ _))
        · exact Or.inr (Or.inl (List.mem_cons_of_mem _ h))
        · exact Or.inr (Or.inr h)
      | cons a as =>
        rw [eulerLoop_push fuel stk circuit hadj] at hx
        rcases ih _ _ _ x hx with h | h | h
        · exact Or.inl h
        · rcases List.mem_cons.mp h with rfl | h
          · refine Or.inr (Or.inr (mem_gVerts_of_getD (a := current) ?_))
            rw [hadj]
            exact List.getLast_mem _
          · exact Or.inr (Or.inl h)
        · refine Or.inr (Or.inr ?_)
          rcases mem_gVerts_set h with h | h
          · rcases mem_gVerts_set h with h | h
            · exact h
            · refine mem_gVerts_of_getD (a := current) ?_
              rw [hadj]
              exact (List.dropLast_sublist _).subset h
          · have h' := List.mem_of_mem_erase h
            rw [getD_set] at h'
            by_cases hc : (a :: as).getLast (by simp) = current ∧ current < g.length
            · rw [if_pos hc] at h'
              refine mem_gVerts_of_getD (a := current) ?_
              rw [hadj]
              exact (List.dropLast_sublist _).subset h'
            · rw [if_neg hc] at h'
              exact mem_gVerts_of_getD h'

/-- With enough fuel, nothing is lost: the circuit so far and everything
on the stack reaches the output. -/
theorem eulerLoop_super : ∀ (fuel : ℕ) (g : List (List ℕ)) (path circuit : List ℕ),
    2 * gSize g + path.length ≤ fuel →
    ∀ x, (x ∈ circuit ∨ x ∈ path) → x ∈ eulerLoop fuel g path circuit := by
  intro fuel
  induction fuel with
  | zero =>
    intro g path circuit hfuel x hx
    have hnil : path = [] := List.eq_nil_of_length_eq_zero (by omega)
    subst hnil
    rcases hx with h | h
    · exact h
    · cases h
  | succ fuel ih =>
    intro g path circuit hfuel x hx
    cases path with
    | nil =>
      rw [eulerLoop_nil]
      rcases hx with h | h
      · exact h
      · cases h
    | cons current stk =>
      cases hadj : g.getD current [] with
      | nil =>
        rw [eulerLoop_pop fuel stk circuit hadj]
        apply ih
        · simp only [List.length_cons] at hfuel ⊢
          omega
        · rcases hx with h | h
          · exact Or.inl (List.mem_append_left _ h)
          · rcases List.mem_cons.mp h with rfl | h
            · exact Or.inl (List.mem_append_right _ (List.mem_singleton_self _))
            · exact Or.inr h
      | cons a as =>
        rw [eulerLoop_push fuel stk circuit hadj]
        apply ih
        · exact euler_fuel_step hadj stk.length (by simpa using hfuel)
        · rcases hx with h | h
          · exact Or.inl h
          · exact Or.inr (List.mem_cons_of_mem _ h)

/-- The key closure property: provided every already-popped city has an
exhausted adjacency list, the output set is closed under the current
adjacency structure. -/
theorem eulerLoop_closed : ∀ (fuel : ℕ) (g : List (List ℕ)) (path circuit : List ℕ),
    2 * gSize g + path.length ≤ fuel →
    (∀ v ∈ circuit, g.getD v [] = []) →
    ∀ x ∈ eulerLoop fuel g path circuit, ∀ y ∈ g.getD x [],
      y ∈ eulerLoop fuel g path circuit := by
  intro fuel
  induction fuel with
  | zero =>
    intro g path circuit _ hinv x hx y hy
    rw [hinv x hx] at hy
    cases hy
  | succ fuel ih =>
    intro g path circuit hfuel hinv x hx y hy
    cases path with
    | nil =>
      rw [eulerLoop_nil] at hx ⊢
      rw [hinv x hx] at hy
      cases hy
    | cons current stk =>
      cases hadj : g.getD current [] with
      | nil =>
        rw [eulerLoop_pop fuel stk circuit hadj] at hx ⊢
        refine ih g stk _ ?_ ?_ x hx y hy
        · simp only [List.length_cons] at hfuel ⊢
          omega
        · intro v hv
          rcases List.mem_append.mp hv with hv | hv
          · exact hinv v hv
          · rw [List.mem_singleton] at hv
            subst hv
            exact hadj
      | cons a as =>
        have hcur_lt : current < g.length := by
          by_contra hge
          rw [getD_out (Nat.le_of_not_lt hge)] at hadj
          exact List.noConfusion hadj
        rw [eulerLoop_push fuel stk circuit hadj] at hx ⊢
        set next := (a :: as).getLast (by simp) with hnext
        set g1 := g.set current (a :: as).dropLast with hg1
        set g2 := g1.set next ((g1.getD next []).erase current) with hg2
        have hfuel2 : 2 * gSize g2 + (next :: current :: stk).length ≤ fuel := by
          rw [hg2, hg1, hnext]
          exact euler_fuel_step hadj stk.length (by simpa using hfuel)
        have hg1len : g1.length = g.length := by rw [hg1, List.length_set]
        have hg1cur : g1.getD current [] = (a :: as).dropLast := by
          rw [hg1, getD_set, if_pos ⟨rfl, hcur_lt⟩]
        have hg1other : ∀ z, z ≠ current → g1.getD z [] = g.getD z [] := by
          intro z hz
          rw [hg1, getD_set, if_neg (by rintro ⟨h, -⟩; exact hz h)]
        have hinv2 : ∀ v ∈ circuit, g2.getD v [] = [] := by
          intro v hv
          have hv_ne : v ≠ current := by
            intro habs
            have hvc := hinv v hv
            rw [habs, hadj] at hvc
            exact List.noConfusion hvc
          rw [hg2, getD_set]
          by_cases hc : v = next ∧ next < g1.length
          · rw [if_pos hc, ← hc.1, hg1other v hv_ne, hinv v hv]
            rfl
          · rw [if_neg hc, hg1other v hv_ne]
            exact hinv v hv
        have hsplit : a :: as = (a :: as).dropLast ++ [next] := by
          rw [hnext]
          exact (List.dropLast_append_getLast (by simp)).symm
        have hkey : ∀ z y', y' ∈ g.getD z [] →
            y' ∈ g2.getD z [] ∨ y' = next ∨ y' = current := by
          intro z y' hy'
          by_cases hzn : z = next ∧ next < g1.length
          · have hg2z : g2.getD z [] = (g1.getD next []).erase current := by
              rw [hg2, getD_set, if_pos hzn]
            by_cases hzc : z = current
            · have hg1next : g1.getD next [] = (a :: as).dropLast := by
                rw [← hzn.1, hzc, hg1cur]
              rw [hzc, hadj, hsplit] at hy'
              rcases List.mem_append.mp hy' with hy' | hy'
              · by_cases hyc : y' = current
                · exact Or.inr (Or.inr hyc)
                · refine Or.inl ?_
                  rw [hg2z, hg1next]
                  exact (List.mem_erase_of_ne hyc).mpr hy'
              · rw [List.mem_singleton] at hy'
                exact Or.inr (Or.inl hy')
            · have hg1next : g1.getD next [] = g.getD z [] := by
                rw [← hzn.1, hg1other z hzc]
              by_cases hyc : y' = current
              · exact Or.inr (Or.inr hyc)
              · refine Or.inl ?_
                rw [hg2z, hg1next]
                exact (List.mem_erase_of_ne hyc).mpr hy'
          · have hg2z : g2.getD z [] = g1.getD z [] := by
              rw [hg2, getD_set, if_neg hzn]
            by_cases hzc : z = current
            · rw [hzc, hadj, hsplit] at hy'
              rcases List.mem_append.mp hy' with hy' | hy'
              · refine Or.inl ?_
                rw [hg2z, hzc, hg1cur]
                exact hy'
              · rw [List.mem_singleton] at hy'
                exact Or.inr (Or.inl hy')
            · refine Or.inl ?_
              rw [hg2z, hg1other z hzc]
              exact hy'
        rcases hkey x y hy with h | h | h
        · exact ih g2 (next :: current :: stk) circuit hfuel2 hinv2 x hx y h
        · rw [h]
          exact eulerLoop_super fuel g2 _ circuit hfuel2 next
            (Or.inr (List.mem_cons_self _ _))
        · rw [h]
          exact eulerLoop_super fuel g2 _ circuit hfuel2 current
            (Or.inr (List.mem_cons_of_mem _ (List.mem_cons_self _ _)))

/-! ### The Hamiltonian shortcut and full Christofides tour validity -/

theorem mkHam_aux : ∀ (c acc : List ℕ), acc.Nodup →
    (c.foldl (fun tour x => if x ∈ tour then tour else tour ++ [x]) acc).Nodup ∧
    ∀ x, x ∈ c.foldl (fun tour x => if x ∈ tour then tour else tour ++ [x]) acc
      ↔ x ∈ acc ∨ x ∈ c := by
  intro c
  induction c with
  | nil =>
    intro acc hnd
    exact ⟨hnd, fun x => by simp⟩
  | cons y c ih =>
    intro acc hnd
    rw [List.foldl_cons]
    by_cases hy : y ∈ acc
    · rw [if_pos hy]
      obtain ⟨h1, h2⟩ := ih acc hnd
      refine ⟨h1, fun x => ?_⟩
      rw [h2 x, List.mem_cons]
      constructor
      · rintro (h | h)
        · exact Or.inl h
        · exact Or.inr (Or.inr h)
      · rintro (h | rfl | h)
        · exact Or.inl h
        · exact Or.inl hy
        · exact Or.inr h
    · rw [if_neg hy]
      have hnd' : (acc ++ [y]).Nodup :=
        hnd.append (List.nodup_singleton y)
          (fun a ha hb => hy ((List.mem_singleton.mp hb) ▸ ha))
      obtain ⟨h1, h2⟩ := ih (acc ++ [y]) hnd'
      refine ⟨h1, fun x => ?_⟩
      rw [h2 x, List.mem_append, List.mem_singleton, List.mem_cons]
      constructor
      · rintro ((h | rfl) | h)
        · exact Or.inl h
        · exact Or.inr (Or.inl rfl)
        · exact Or.inr (Or.inr h)
      · rintro (h | rfl | h)
        · exact Or.inl (Or.inl h)
        · exact Or.inl (Or.inr rfl)
        · exact Or.inr h

theorem make_hamiltonian_spec (circuit : List ℕ) :
    (make_hamiltonian circuit).Nodup ∧
    ∀ x, x ∈ make_hamiltonian circuit ↔ x ∈ circuit := by
  obtain ⟨h1, h2⟩ := mkHam_aux circuit [] List.nodup_nil
  exact ⟨h1, fun x => by rw [make_hamiltonian, h2 x]; simp⟩

/-- The Christofides pipeline produces a Hamiltonian tour: the multigraph
of MST plus matching edges connects every city to city 0, the Hierholzer
loop therefore reaches every city, and the shortcut keeps exactly one copy
of each. -/
theorem christofides_tour_perm (d : Dist) {n : ℕ} (hn : 2 ≤ n) :
    (make_hamiltonian (find_eulerian_circuit
      (combine_mst_matching n (compute_mst d n)
        (min_weight_matching d n
          (find_odd_degree_vertices n (compute_mst d n)))))).Perm
      (List.range n) := by
  obtain ⟨hmst_lt, hmst_reach⟩ := compute_mst_spec d n (by omega)
  have hmatch_lt : ∀ e ∈ min_weight_matching d n
      (find_odd_degree_vertices n (compute_mst d n)), e.1 < n ∧ e.2 < n :=
    min_weight_matching_mem fun i hi => find_odd_mem hi
  have hE_lt : ∀ e ∈ compute_mst d n ++ min_weight_matching d n
      (find_odd_degree_vertices n (compute_mst d n)), e.1 < n ∧ e.2 < n := by
    intro e he
    rcases List.mem_append.mp he with he | he
    · exact hmst_lt e he
    · exact hmatch_lt e he
  have hadj := combine_adj hE_lt
  set G := combine_mst_matching n (compute_mst d n)
    (min_weight_matching d n (find_odd_degree_vertices n (compute_mst d n))) with hG
  have hfuel : 2 * gSize G + ([0] : List ℕ).length ≤ 2 * gSize G + 1 := le_refl _
  have h0T : 0 ∈ eulerLoop (2 * gSize G + 1) G [0] [] :=
    eulerLoop_super _ G [0] [] hfuel 0 (Or.inr (List.mem_singleton_self 0))
  have hclosed := eulerLoop_closed (2 * gSize G + 1) G [0] [] hfuel
    (by intro v hv; cases hv)
  have hreachT : ∀ j, Relation.ReflTransGen (edgeRel (compute_mst d n)) 0 j →
      j ∈ eulerLoop (2 * gSize G + 1) G [0] [] := by
    intro j hr
    induction hr with
    | refl => exact h0T
    | tail h1 h2 ih =>
      rename_i b c
      have hbc : c ∈ G.getD b [] := by
        rcases h2 with h | h
        · exact (hadj (b, c) (List.mem_append_left _ h)).1
        · exact (hadj (c, b) (List.mem_append_left _ h)).2
      exact hclosed b ih c hbc
  have hsubT : ∀ x ∈ eulerLoop (2 * gSize G + 1) G [0] [], x < n := by
    intro x hx
    rcases eulerLoop_subset _ G [0] [] x hx with h | h | h
    · cases h
    · rw [List.mem_singleton] at h
      omega
    · obtain ⟨e, he, hx⟩ := combine_gVerts h
      rcases hx with rfl | rfl
      · exact (hE_lt e he).1
      · exact (hE_lt e he).2
  obtain ⟨hnd, hmem⟩ := make_hamiltonian_spec (find_eulerian_circuit G)
  apply perm_range_of_nodup_toFinset hnd
  ext x
  rw [List.mem_toFinset, hmem x, find_eulerian_circuit, List.mem_reverse,
    Finset.mem_range]
  exact ⟨fun h => hsubT x h, fun h => hreachT x (hmst_reach x h)⟩

/-- Field-level correctness of `christofides`: a Hamiltonian tour whose
recomputed cost is the stored cost, with the nominal ratio label. -/
theorem christofides_spec (d : Dist) {n : ℕ} (hn : 2 ≤ n) :
    (christofides d n).tour.Perm (List.range n) ∧
    (christofides d n).cost = calculate_tour_cost d (christofides d n).tour ∧
    (christofides d n).num_cities = n ∧
    (christofides d n).is_optimal = false ∧
    (christofides d n).algorithm = "Christofides" ∧
    (christofides d n).approximation_ratio = some (3 / 2) := by
  refine ⟨christofides_tour_perm d hn, rfl, rfl, rfl, rfl, rfl⟩

/-! ### Result validity: the spec's per-result invariants -/

/-- The spec's Result invariants: `len(tour) == num_cities`, the tour is a
permutation of `{0, …, num_cities − 1}` (no duplicates, full coverage),
and the stored cost equals the recomputed tour cost (exactly, in `ℚ`). -/
def ValidResult (d : Dist) (r : TSPResult) : Prop :=
  r.tour.length = r.num_cities ∧ r.tour.Perm (List.range r.num_cities) ∧
  r.cost = calculate_tour_cost d r.tour

theorem two_opt_valid (d : Dist) {n : ℕ} {t0 : List ℕ}
    (h : t0.Perm (List.range n)) (k : ℕ) :
    ValidResult d (two_opt d n (some t0) k) := by
  have hperm : (twoOptLoop d n k t0 (calculate_tour_cost d t0)).1.Perm (List.range n) :=
    (twoOptLoop_perm d n k t0 _).trans h
  refine ⟨?_, ?_, ?_⟩
  · show (twoOptLoop d n k t0 (calculate_tour_cost d t0)).1.length = n
    exact hperm.length_eq.trans (List.length_range n)
  · show (twoOptLoop d n k t0 (calculate_tour_cost d t0)).1.Perm (List.range n)
    exact hperm
  · show (twoOptLoop d n k t0 (calculate_tour_cost d t0)).2
      = calculate_tour_cost d (twoOptLoop d n k t0 (calculate_tour_cost d t0)).1
    exact twoOptLoop_costEq d n k t0 _ rfl

theorem held_karp_valid (d : Dist) {n : ℕ} (h2 : 2 ≤ n) {r : TSPResult}
    (hr : held_karp d n = .ok r) : ValidResult d r := by
  by_cases h20 : n ≤ 20
  · obtain ⟨r', h1, -, hperm, hcost, -, -, hnum, -⟩ := held_karp_spec d h2 h20
    rw [h1] at hr
    have heq := Except.ok.inj hr
    subst heq
    exact ⟨by rw [hnum]; exact hperm.length_eq.trans (List.length_range n),
      by rw [hnum]; exact hperm, hcost.symm⟩
  · rw [held_karp, if_pos (by omega)] at hr
    exact Except.noConfusion hr

theorem nearest_neighbor_valid (d : Dist) {n start : ℕ} (hs : start < n)
    {r : TSPResult} (hr : nearest_neighbor d n start = .ok r) : ValidResult d r := by
  obtain ⟨r', h1, hperm, -, hcost, hnum, -⟩ := nearest_neighbor_spec d hs
  rw [h1] at hr
  have heq := Except.ok.inj hr
  subst heq
  exact ⟨by rw [hnum]; exact hperm.length_eq.trans (List.length_range n),
    by rw [hnum]; exact hperm, hcost.symm⟩

theorem christofides_valid (d : Dist) {n : ℕ} (h2 : 2 ≤ n) :
    ValidResult d (christofides d n) := by
  obtain ⟨hperm, hcost, hnum, -, -, -⟩ := christofides_spec d h2
  exact ⟨by rw [hnum]; exact hperm.length_eq.trans (List.length_range n),
    by rw [hnum]; exact hperm, hcost⟩

theorem solve_valid (d : Dist) {n : ℕ} (h2 : 2 ≤ n) (alg : String) {r : TSPResult}
    (hr : solve d n alg = .ok r) : ValidResult d r := by
  rw [solve] at hr
  by_cases ha : alg = "auto"
  · rw [if_pos ha] at hr
    by_cases h15 : n ≤ 15
    · rw [if_pos h15] at hr
      exact held_karp_valid d h2 hr
    · rw [if_neg h15] at hr
      by_cases h100 : n ≤ 100
      · rw [if_pos h100] at hr
        have heq := Except.ok.inj hr
        subst heq
        exact christofides_valid d h2
      · rw [if_neg h100] at hr
        obtain ⟨rn, hnn, hperm, -, -, -, -, -⟩ :=
          nearest_neighbor_spec d (show 0 < n by omega)
        rw [hnn] at hr
        have heq := Except.ok.inj hr
        subst heq
        exact two_opt_valid d hperm 1000
  · rw [if_neg ha] at hr
    by_cases hb : alg = "held-karp"
    · rw [if_pos hb] at hr
      exact held_karp_valid d h2 hr
    · rw [if_neg hb] at hr
      by_cases hc : alg = "christofides"
      · rw [if_pos hc] at hr
        have heq := Except.ok.inj hr
        subst heq
        exact christofides_valid d h2
      · rw [if_neg hc] at hr
        by_cases hd2 : alg = "nearest-neighbor"
        · rw [if_pos hd2] at hr
          exact nearest_neighbor_valid d (show 0 < n by omega) hr
        · rw [if_neg hd2] at hr
          by_cases he : alg = "2-opt"
          · rw [if_pos he] at hr
            have heq := Except.ok.inj hr
            subst heq
            exact two_opt_valid d (List.Perm.refl (List.range n)) 1000
          · rw [if_neg he] at hr
            exact Except.noConfusion hr

theorem optimalCost_le (d : Dist) {n : ℕ} {t : List ℕ} (ht : t.Perm (List.range n)) :
    optimalCost d n ≤ (calculate_tour_cost d t : WithTop ℚ) :=
  listMin_le_of_mem (List.mem_map_of_mem _ (List.mem_permutations'.mpr ht))

/-! ### Concrete matrices used by witnesses and counterexamples -/

/-- 4-city matrix: all off-diagonal costs 10 except `d 3 1 = 1`.  On the
identity tour no segment reversal with `1 ≤ i` changes the cost, yet the
prefix reversal at positions `(0, 1)` reaches the strictly cheaper tour
`[1, 0, 2, 3]`. -/
def dW : Dist := fun i j =>
  if i = j then 0 else if i = 3 ∧ j = 1 then 1 else 10

/-- 4-city matrix on which the very first scanned pair `(1, 2)` strictly
improves the identity tour. -/
def dW2 : Dist := fun i j =>
  if i = j then 0
  else if i = 1 ∧ j = 2 then 100
  else if i = 2 ∧ j = 1 then 2 else 10

/-- A well-formed 2×2 matrix. -/
def mW : NpMatrix := ⟨2, 2, fun i j => if i = j then 0 else 10⟩

/-! ### The claims -/

/-- C1: for every valid cost matrix with `2 ≤ n ≤ 20`, `held_karp` returns
a result whose cost equals the true minimum cost over all Hamiltonian
cycles of the matrix, whose tour is a Hamiltonian cycle achieving that
cost, with `is_optimal = true` and `approximation_ratio` unset. -/
theorem claim_C1 (d : Dist) (n : ℕ) (h2 : 2 ≤ n) (h20 : n ≤ 20) :
    ∃ r, held_karp d n = .ok r ∧
      (r.cost : WithTop ℚ) = optimalCost d n ∧
      r.tour.Perm (List.range n) ∧
      calculate_tour_cost d r.tour = r.cost ∧
      r.is_optimal = true ∧ r.approximation_ratio = none := by
  obtain ⟨r, ha, hb, hc, hd, he, hf, -, -⟩ := held_karp_spec d h2 h20
  exact ⟨r, ha, hb, hc, hd, he, hf⟩

theorem claim_C1_witness :
    (2 ≤ 3 ∧ 3 ≤ 20) ∧
    ∃ r, held_karp dW 3 = .ok r ∧
      (r.cost : WithTop ℚ) = optimalCost dW 3 ∧
      r.tour.Perm (List.range 3) ∧
      calculate_tour_cost dW r.tour = r.cost ∧
      r.is_optimal = true ∧ r.approximation_ratio = none :=
  ⟨⟨by decide, by decide⟩, claim_C1 dW 3 (by decide) (by decide)⟩

/-- C2: every result produced by a solver entrypoint on a valid matrix
with default or valid parameters satisfies the Result invariants: the
tour has length `num_cities`, is a permutation of `{0, …, num_cities−1}`,
and the cost field equals the recomputed tour cost. -/
theorem claim_C2 (d : Dist) (n : ℕ) (h2 : 2 ≤ n) :
    (∀ r, held_karp d n = .ok r → ValidResult d r) ∧
    (∀ start, start < n →
      ∀ r, nearest_neighbor d n start = .ok r → ValidResult d r) ∧
    ValidResult d (christofides d n) ∧
    (∀ k, ValidResult d (two_opt d n none k)) ∧
    (∀ t0 k, t0.Perm (List.range n) → ValidResult d (two_opt d n (some t0) k)) ∧
    (∀ alg r, solve d n alg = .ok r → ValidResult d r) := by
  refine ⟨fun r hr => held_karp_valid d h2 hr,
    fun start hs r hr => nearest_neighbor_valid d hs hr,
    christofides_valid d h2,
    fun k => two_opt_valid d (List.Perm.refl (List.range n)) k,
    fun t0 k ht => two_opt_valid d ht k,
    fun alg r hr => solve_valid d h2 alg hr⟩

theorem claim_C2_witness :
    2 ≤ 3 ∧ ValidResult dW (christofides dW 3) :=
  ⟨by decide, (claim_C2 dW 3 (by decide)).2.2.1⟩

/-- C3: for every matrix, every initial tour (the identity order when
omitted) and every iteration budget, the 2-opt result cost is at most the
initial tour's cost, and it is non-increasing as the budget grows. -/
theorem claim_C3 (d : Dist) (n : ℕ) (initial : Option (List ℕ)) (k k' : ℕ)
    (hk : k ≤ k') :
    (two_opt d n initial k).cost ≤ calculate_tour_cost d
      (match initial with | none => List.range n | some t => t) ∧
    (two_opt d n initial k').cost ≤ (two_opt d n initial k).cost := by
  cases initial with
  | none =>
    exact ⟨twoOptLoop_le d n k (List.range n) _,
      twoOptLoop_mono_le d n hk (List.range n) _⟩
  | some t =>
    exact ⟨twoOptLoop_le d n k t _, twoOptLoop_mono_le d n hk t _⟩

theorem claim_C3_witness :
    2 ≤ 5 ∧
    ((two_opt dW 4 (some [0, 1, 2, 3]) 2).cost
        ≤ calculate_tour_cost dW [0, 1, 2, 3] ∧
      (two_opt dW 4 (some [0, 1, 2, 3]) 5).cost
        ≤ (two_opt dW 4 (some [0, 1, 2, 3]) 2).cost) :=
  ⟨by decide, claim_C3 dW 4 (some [0, 1, 2, 3]) 2 5 (by decide)⟩

/-- C4: the exact solver rejects any instance with more than 20 cities
with the `ValueError` naming the 20-city limit, before any DP work, and
succeeds (no such error) on every validated instance with `n ≤ 20`. -/
theorem claim_C4 (d : Dist) (n : ℕ) :
    (n > 20 → held_karp d n = .error (.valueError
      "Held-Karp: Too many cities (max 20 for practical computation)")) ∧
    (2 ≤ n → n ≤ 20 → ∃ r, held_karp d n = .ok r ∧ r.is_optimal = true) := by
  constructor
  · intro h
    rw [held_karp, if_pos h]
  · intro h2 h20
    obtain ⟨r, ha, -, -, -, he, -, -, -⟩ := held_karp_spec d h2 h20
    exact ⟨r, ha, he⟩

theorem claim_C4_witness :
    25 > 20 ∧ held_karp dW 25 = .error (.valueError
      "Held-Karp: Too many cities (max 20 for practical computation)") :=
  ⟨by decide, (claim_C4 dW 25).1 (by decide)⟩

/-- C5: `solve` dispatches as specified: in auto mode by city count
(`n ≤ 15` exact, `15 < n ≤ 100` Christofides, `n > 100` nearest neighbour
followed by 2-opt seeded with that tour); explicit names go directly to
the named solver, the 2-opt path being seeded by the identity order; any
other name fails with the unknown-algorithm `ValueError`. -/
theorem claim_C5 (d : Dist) (n : ℕ) :
    (n ≤ 15 → solve d n "auto" = held_karp d n) ∧
    (15 < n → n ≤ 100 → solve d n "auto" = .ok (christofides d n)) ∧
    (100 < n → ∃ rn, nearest_neighbor d n 0 = .ok rn ∧
      solve d n "auto" = .ok (two_opt d n (some rn.tour) 1000)) ∧
    solve d n "held-karp" = held_karp d n ∧
    solve d n "christofides" = .ok (christofides d n) ∧
    solve d n "nearest-neighbor" = nearest_neighbor d n 0 ∧
    solve d n "2-opt" = .ok (two_opt d n none 1000) ∧
    two_opt d n none 1000 = two_opt d n (some (List.range n)) 1000 ∧
    (∀ alg, alg ∉ (["auto", "held-karp", "christofides", "nearest-neighbor",
        "2-opt"] : List String) →
      solve d n alg = .error (.valueError ("Unknown algorithm: " ++ alg))) := by
  refine ⟨?_, ?_, ?_, ?_, ?_, ?_, ?_, rfl, ?_⟩
  · intro h15
    rw [solve, if_pos rfl, if_pos h15]
  · intro h15 h100
    rw [solve, if_pos rfl, if_neg (by omega), if_pos h100]
  · intro h100
    obtain ⟨rn, hnn, -, -, -, -, -, -⟩ := nearest_neighbor_spec d (show 0 < n by omega)
    refine ⟨rn, hnn, ?_⟩
    rw [solve, if_pos rfl, if_neg (by omega), if_neg (by omega), hnn]
  · rw [solve, if_neg (by decide), if_pos rfl]
  · rw [solve, if_neg (by decide), if_neg (by decide), if_pos rfl]
  · rw [solve, if_neg (by decide), if_neg (by decide), if_neg (by decide), if_pos rfl]
  · rw [solve, if_neg (by decide), if_neg (by decide), if_neg (by decide),
      if_neg (by decide), if_pos rfl]
  · intro alg halg
    simp only [List.mem_cons, List.mem_singleton, not_or] at halg
    obtain ⟨h1, h2, h3, h4, h5, -⟩ := halg
    rw [solve, if_neg h1, if_neg h2, if_neg h3, if_neg h4, if_neg h5]

theorem claim_C5_witness :
    100 < 101 ∧ ∃ rn, nearest_neighbor dW 101 0 = .ok rn ∧
      solve dW 101 "auto" = .ok (two_opt dW 101 (some rn.tour) 1000) :=
  ⟨by decide, (claim_C5 dW 101).2.2.1 (by decide)⟩

/-- C6 counterexample: the code does not scan all position pairs
`(i, j)` with `i < j`.  On the matrix `dW` and the identity tour, the
prefix reversal at pair `(0, 1)` strictly reduces the cost, yet `two_opt`
terminates immediately and returns the identity tour at its original
cost: the pairs with `i = 0` are never scanned. -/
theorem claim_C6_counterexample :
    calculate_tour_cost dW (twoOptSwap [0, 1, 2, 3] 0 1)
        < calculate_tour_cost dW [0, 1, 2, 3] ∧
    (two_opt dW 4 (some [0, 1, 2, 3]) 1000).tour = [0, 1, 2, 3] ∧
    (two_opt dW 4 (some [0, 1, 2, 3]) 1000).cost
        = calculate_tour_cost dW [0, 1, 2, 3] := by
  exact ⟨by with_unfolding_all decide, by with_unfolding_all decide,
    by with_unfolding_all decide⟩

/-- C6 as amended: 2-opt performs first-improvement local search over the
position pairs `(i, j)` with `1 ≤ i < j ≤ n − 1` (position 0 is never the
left endpoint): the nested loops enumerate exactly those pairs in strictly
increasing lexicographic order; a scan accepts the lexicographically first
pair whose segment reversal strictly reduces the cost and restarts with
one budget unit consumed; a scan with no improving pair, or an exhausted
budget, terminates the loop. -/
theorem claim_C6_amended (d : Dist) (n : ℕ) (tour : List ℕ) (best : ℚ) (k : ℕ) :
    (∀ i j, (i, j) ∈ scanPairs n ↔ 1 ≤ i ∧ i < j ∧ j < n) ∧
    List.Pairwise pairLt (scanPairs n) ∧
    twoOptLoop d n 0 tour best = (tour, best) ∧
    ((∀ p ∈ scanPairs n, ¬ calculate_tour_cost d (twoOptSwap tour p.1 p.2) < best) →
      twoOptLoop d n (k + 1) tour best = (tour, best)) ∧
    (∀ p ∈ scanPairs n, calculate_tour_cost d (twoOptSwap tour p.1 p.2) < best →
      (∀ q ∈ scanPairs n, pairLt q p →
        ¬ calculate_tour_cost d (twoOptSwap tour q.1 q.2) < best) →
      twoOptLoop d n (k + 1) tour best
        = twoOptLoop d n k (twoOptSwap tour p.1 p.2)
            (calculate_tour_cost d (twoOptSwap tour p.1 p.2))) := by
  refine ⟨fun i j => mem_scanPairs, scanPairs_pairwise n, rfl, ?_, ?_⟩
  · intro hnone
    have hfind : (scanPairs n).find? (fun p =>
        decide (calculate_tour_cost d (twoOptSwap tour p.1 p.2) < best)) = none := by
      rw [List.find?_eq_none]
      intro p hp
      rw [decide_eq_true_eq]
      exact hnone p hp
    rw [twoOptLoop, hfind]
  · intro p hp himp hfirst
    obtain ⟨as, bs, hdecomp⟩ := List.append_of_mem hp
    have hpw := scanPairs_pairwise n
    rw [hdecomp, List.pairwise_append] at hpw
    have hfind : (scanPairs n).find? (fun q =>
        decide (calculate_tour_cost d (twoOptSwap tour q.1 q.2) < best)) = some p := by
      rw [List.find?_eq_some]
      refine ⟨by rw [decide_eq_true_eq]; exact himp, as, bs, hdecomp, ?_⟩
      intro a ha
      rw [Bool.not_eq_true', decide_eq_false_iff_not]
      refine hfirst a ?_ ?_
      · rw [hdecomp]
        exact List.mem_append_left _ ha
      · exact hpw.2.2 a ha p (List.mem_cons_self _ _)
    rw [twoOptLoop, hfind]

theorem claim_C6_witness :
    twoOptLoop dW2 4 1 [0, 1, 2, 3] 130
      = twoOptLoop dW2 4 0 (twoOptSwap [0, 1, 2, 3] 1 2)
          (calculate_tour_cost dW2 (twoOptSwap [0, 1, 2, 3] 1 2)) :=
  (claim_C6_amended dW2 4 [0, 1, 2, 3] 130 0).2.2.2.2 (1, 2)
    (by decide) (by with_unfolding_all decide) (by with_unfolding_all decide)

/-- C7: on every instance with `2 ≤ n ≤ 20` the exact solver's cost is
never beaten by either heuristic. -/
theorem claim_C7 (d : Dist) (n : ℕ) (h2 : 2 ≤ n) (h20 : n ≤ 20) :
    ∃ r rn, held_karp d n = .ok r ∧ nearest_neighbor d n 0 = .ok rn ∧
      r.cost ≤ rn.cost ∧ r.cost ≤ (christofides d n).cost := by
  obtain ⟨r, ha, hopt, -, -, -, -, -, -⟩ := held_karp_spec d h2 h20
  obtain ⟨rn, hb, hnperm, -, hncost, -, -⟩ := nearest_neighbor_spec d
    (show 0 < n by omega)
  obtain ⟨hcperm, hccost, -, -, -, -⟩ := christofides_spec d h2
  refine ⟨r, rn, ha, hb, ?_, ?_⟩
  · have h1 : (r.cost : WithTop ℚ) ≤ (rn.cost : WithTop ℚ) := by
      rw [hopt, ← hncost]
      exact optimalCost_le d hnperm
    exact_mod_cast h1
  · have h1 : (r.cost : WithTop ℚ) ≤ ((christofides d n).cost : WithTop ℚ) := by
      rw [hopt, hccost]
      exact optimalCost_le d hcperm
    exact_mod_cast h1

theorem claim_C7_witness :
    (2 ≤ 2 ∧ 2 ≤ 20) ∧
    ∃ r rn, held_karp dW 2 = .ok r ∧ nearest_neighbor dW 2 0 = .ok rn ∧
      r.cost ≤ rn.cost ∧ r.cost ≤ (christofides dW 2).cost :=
  ⟨⟨by decide, by decide⟩, claim_C7 dW 2 (by decide) (by decide)⟩

/-- C8: solver construction validates the matrix, checking in order
squareness, `n ≥ 2`, and an all-zero diagonal; it fails with the
`ValueError` naming the first violated check, and succeeds exactly on
matrices satisfying all three. -/
theorem claim_C8 (m : NpMatrix) :
    (m.rows ≠ m.cols →
      mkSolver m = .error (.valueError "Distance matrix must be square")) ∧
    (m.rows = m.cols → m.rows < 2 →
      mkSolver m = .error (.valueError "Need at least 2 cities")) ∧
    (m.rows = m.cols → 2 ≤ m.rows → (∃ i, i < m.rows ∧ m.entry i i ≠ 0) →
      mkSolver m = .error (.valueError "Diagonal elements must be zero")) ∧
    (m.rows = m.cols → 2 ≤ m.rows → (∀ i, i < m.rows → m.entry i i = 0) →
      mkSolver m = .ok ⟨m, m.rows⟩) := by
  refine ⟨?_, ?_, ?_, ?_⟩
  · intro h
    have hv : validate_input m = .error (.valueError "Distance matrix must be square") := by
      rw [validate_input, if_pos h]
    rw [mkSolver, hv]
  · intro hsq hlt
    have hv : validate_input m = .error (.valueError "Need at least 2 cities") := by
      rw [validate_input, if_neg (by intro h; exact h hsq), if_pos hlt]
    rw [mkSolver, hv]
  · intro hsq hge hex
    obtain ⟨i, hi, hne⟩ := hex
    have hv : validate_input m
        = .error (.valueError "Diagonal elements must be zero") := by
      rw [validate_input, if_neg (by intro h; exact h hsq), if_neg (by omega),
        if_pos (by intro hall; exact hne (hall i (Finset.mem_range.mpr hi)))]
    rw [mkSolver, hv]
  · intro hsq hge hall
    have hv : validate_input m = .ok () := by
      rw [validate_input, if_neg (by intro h; exact h hsq), if_neg (by omega),
        if_neg (by
          intro hno
          exact hno fun i hi => hall i (Finset.mem_range.mp hi))]
    rw [mkSolver, hv]

theorem claim_C8_witness :
    (mW.rows = mW.cols ∧ 2 ≤ mW.rows ∧ (∀ i, i < mW.rows → mW.entry i i = 0)) ∧
    mkSolver mW = .ok ⟨mW, mW.rows⟩ :=
  ⟨⟨by decide, by decide, by with_unfolding_all decide⟩,
    (claim_C8 mW).2.2.2 (by decide) (by decide) (by with_unfolding_all decide)⟩

/-- C9 (implicit): `nearest_neighbor` does not validate its starting
city: every `start < n` succeeds with a tour beginning at `start`, while
any `start` outside the city range fails with the untyped `KeyError`
escaping `unvisited.remove(start)`, which is none of the `ValueError`s of
the spec's taxonomy. -/
theorem claim_C9 (d : Dist) (n : ℕ) (start : ℕ) :
    (start < n →
      ∃ r, nearest_neighbor d n start = .ok r ∧ r.tour.head? = some start) ∧
    (n ≤ start → nearest_neighbor d n start = .error .keyError ∧
      ∀ msg, TSPError.keyError ≠ TSPError.valueError msg) := by
  constructor
  · intro hs
    obtain ⟨r, ha, -, hh, -, -, -⟩ := nearest_neighbor_spec d hs
    exact ⟨r, ha, hh⟩
  · intro hs
    refine ⟨?_, fun msg h => TSPError.noConfusion h⟩
    rw [nearest_neighbor, if_neg (by omega)]

theorem claim_C9_witness :
    3 ≤ 5 ∧ (nearest_neighbor dW 3 5 = .error .keyError ∧
      ∀ msg, TSPError.keyError ≠ TSPError.valueError msg) :=
  ⟨by decide, (claim_C9 dW 3 5).2 (by decide)⟩

/-- C10 (implicit): `two_opt` copies the caller's initial tour and only
applies contiguous-segment reversals to it, so — the embedding being
pure, the caller's list is never mutated — the result tour always has
exactly the same entries with the same multiplicities as the initial
tour, even when that tour is not a permutation of the city range. -/
theorem claim_C10 (d : Dist) (n : ℕ) (initial : List ℕ) (k : ℕ) :
    (two_opt d n (some initial) k).tour.Perm initial := by
  show (twoOptLoop d n k initial (calculate_tour_cost d initial)).1.Perm initial
  exact twoOptLoop_perm d n k initial _

end TSP
